import Mathlib

/-!
Verification of the fic-grade-bot change-detection core.

This file gives a shallow embedding, in Lean, of the pure algorithmic core of
the grade-notification bot: snapshot normalization, flat and hierarchical
change detection, the archival policy, the recent-events ring buffer, the
monitoring step's error path, and the HTML extractors (modelled over the
element tree the HTML library hands back).  Each embedded definition mirrors
one Python function of the repository; theorems establish the documented
behaviour.

Python-to-Lean conventions used throughout:
  - Python `str` is Lean `String`; `str.strip()` is `pyStrip`;
    `s or ""` on an `Optional[str]` is `Option.getD`.
  - Python `dict` built by successive insertion is an association list with
    first-position/last-value semantics (`dictOfList`); lookup is `lookupD`.
  - `list.sort` / `sorted` (a stable ascending sort) is `List.insertionSort`
    with the corresponding total preorder.
  - Machine integers are `Int` with Python floor semantics (`Int.ediv`,
    `Int.emod` for `//` and `%` on non-negative divisors).
  - fallible operations are `Except`/`Option`; a Python `try/except`
    fallback is an explicit `match`.
-/

/-! ## Python-style string and dict helpers

Core `String` operations such as `trim`, `toUpper` and `split` are not
kernel-reducible, so the Python string primitives are implemented over
character lists. -/

/-- Python `str.strip()` on a character list. -/
def stripChars (cs : List Char) : List Char :=
  ((cs.dropWhile Char.isWhitespace).reverse.dropWhile Char.isWhitespace).reverse

/-- Python `str.strip()`. -/
def pyStrip (s : String) : String :=
  (stripChars s.toList).asString

/-- Python `str.upper()` (ASCII range, which covers the source's inputs). -/
def pyUpper (s : String) : String :=
  (s.toList.map Char.toUpper).asString

/-- Python `str.lower()` (ASCII range). -/
def pyLower (s : String) : String :=
  (s.toList.map Char.toLower).asString

/-- Split a character list on whitespace runs, dropping empty words. -/
def wordsAux : List Char → List Char → List (List Char)
  | [], acc => if acc = [] then [] else [acc.reverse]
  | c :: rest, acc =>
    if c.isWhitespace then
      if acc = [] then wordsAux rest [] else acc.reverse :: wordsAux rest []
    else wordsAux rest (c :: acc)

/-- Python `str.split()` with no argument: split on whitespace runs and drop
empty pieces. -/
def pySplitWs (s : String) : List String :=
  (wordsAux s.toList []).map List.asString

/-- Whitespace normalization `" ".join(s.split())` used by the source before
regex matching. -/
def wsNormalize (s : String) : String :=
  String.intercalate " " (pySplitWs s)

/-- Lookup in a Python dict modelled as an association list (first matching
key wins; `dictOfList` keeps keys unique so this is the dict lookup). -/
def lookupD {α β : Type} [DecidableEq α] : List (α × β) → α → Option β
  | [], _ => none
  | (k, v) :: rest, key => if k = key then some v else lookupD rest key

/-- One Python dict assignment `d[k] = v`: overwrite the value in place if the
key exists, else append the binding. -/
def dictInsert {α β : Type} [DecidableEq α] (d : List (α × β)) (k : α) (v : β) :
    List (α × β) :=
  if d.any (fun p => p.1 = k) then
    d.map (fun p => if p.1 = k then (k, v) else p)
  else d ++ [(k, v)]

/-- Build a Python dict from a binding list by successive assignment
(key keeps its first position, value is the last one written). -/
def dictOfList {α β : Type} [DecidableEq α] (ps : List (α × β)) : List (α × β) :=
  ps.foldl (fun d p => dictInsert d p.1 p.2) []

/-! ## Term-code helpers (`utils.py`)

`parse_fic_term_code` searches its (whitespace-normalized, upper-cased)
argument for a standalone six-digit run, i.e. the regex `\b(\d{6})\b`: six
digits preceded and followed by a non-word character or the string edge. -/

/-- A regex word character (`\w`): letters, digits, underscore. -/
def isWordChar (c : Char) : Bool := c.isAlphanum || c == '_'

/-- Numeric value of a digit list. -/
def digitsVal (cs : List Char) : Nat :=
  cs.foldl (fun a c => a * 10 + (c.toNat - 48)) 0

/-- Whether `\b\d{6}\b` matches at the current position, given the previous
character (`none` at the string start); returns the matched value. -/
def sixDigitAt (prev : Option Char) (cs : List Char) : Option Nat :=
  let ds := cs.take 6
  if ds.length = 6 && ds.all Char.isDigit &&
      (match prev with | none => true | some p => !isWordChar p) &&
      (match cs.drop 6 with | [] => true | c :: _ => !isWordChar c) then
    some (digitsVal ds)
  else none

/-- Leftmost `\b(\d{6})\b` match, as `re.search` finds it. -/
def search6 : Option Char → List Char → Option Nat
  | prev, [] => sixDigitAt prev []
  | prev, c :: rest =>
    match sixDigitAt prev (c :: rest) with
    | some v => some v
    | none => search6 (some c) rest

/-- `parse_fic_term_code`: integer term code from labels like `"FIC 202503"`,
`0` when no standalone six-digit code is present. -/
def parse_fic_term_code (term_label : Option String) : Int :=
  match term_label with
  | none => 0
  | some t =>
    if t = "" then 0
    else
      let s := pyUpper (wsNormalize t)
      match search6 none s.toList with
      | some v => (v : Int)
      | none => 0

/-- `current_fic_term_code` as a function of the current Vancouver year and
month: Jan-Apr is term 1, May-Aug term 2, Sep-Dec term 3, code `y*100+t`. -/
def current_fic_term_code (y m : Int) : Int :=
  let t : Int := if 1 ≤ m ∧ m ≤ 4 then 1 else if 5 ≤ m ∧ m ≤ 8 then 2 else 3
  y * 100 + t

/-- The loop body of `fic_term_prev`, iterated `steps` times over the
`(year, term)` decomposition. -/
def fic_term_prev_loop : Nat → Int × Int → Int × Int
  | 0, st => st
  | n + 1, st =>
    fic_term_prev_loop n (if st.2 ≤ 1 then (st.1 - 1, 3) else (st.1, st.2 - 1))

/-- `fic_term_prev`: step a `YYYYTT` term code back `steps` terms. -/
def fic_term_prev (term_code : Int) (steps : Nat) : Int :=
  let st := fic_term_prev_loop steps (term_code / 100, term_code % 100)
  st.1 * 100 + st.2

/-! ## Archive policy (`moodle_portal.py`, `_apply_archive_policy`)

`active_terms` stands for the `MOODLE_ACTIVE_TERMS` configuration value and
`(nowY, nowM)` for the current date used by `current_fic_term_code`. -/

/-- The window computation of `_apply_archive_policy`:
`keep = int(MOODLE_ACTIVE_TERMS or 1)` then the two clamping conditionals. -/
def clamp_active_terms (a : Int) : Int :=
  let keep0 : Int := if a = 0 then 1 else a
  let keep1 : Int := if keep0 < 1 then 1 else keep0
  if keep1 > 6 then 6 else keep1

/-- `_apply_archive_policy`: decide whether a course is shown as archived. -/
def apply_archive_policy (active_terms : Int) (nowY nowM : Int)
    (base_archived : Bool) (term_label course_code : String) : Bool :=
  if pyStrip course_code = "" then true
  else if base_archived then true
  else
    let tc := parse_fic_term_code (some term_label)
    if tc ≤ 0 then true
    else
      let cur := current_fic_term_code nowY nowM
      let keep := clamp_active_terms active_terms
      decide (tc < fic_term_prev cur (keep - 1).toNat)

/-! Specification-side formulation of the archival rules, written from the
spec's words for comparison with the code path above. -/

/-- Quarter mapping of the spec: months 1-4 are term 1, 5-8 term 2,
9-12 term 3 (meaningful for months 1..12). -/
def spec_quarter (m : Int) : Int :=
  if m ≤ 4 then 1 else if m ≤ 8 then 2 else 3

/-- Spec-side term stepping on `(year, term)` pairs: stepping back from
term 1 yields term 3 of the previous year. -/
def spec_term_step_back : Nat → Int × Int → Int × Int
  | 0, yt => yt
  | n + 1, yt =>
    spec_term_step_back n (if yt.2 = 1 then (yt.1 - 1, 3) else (yt.1, yt.2 - 1))

/-- Oldest still-active term code per the spec: the current `(year, term)`
stepped back `window - 1` terms, window clamped to `[1, 6]`. -/
def spec_oldest_active (y m window : Int) : Int :=
  let w := max 1 (min 6 window)
  let yt := spec_term_step_back (w - 1).toNat (y, spec_quarter m)
  yt.1 * 100 + yt.2

/-- The spec's ordered archival rules: empty code, portal flag, unparsable
term label, then chronological comparison against the active window. -/
def spec_archived (window y m : Int) (raw_archived : Bool)
    (term_label course_code : String) : Bool :=
  if pyStrip course_code = "" then true
  else if raw_archived then true
  else if parse_fic_term_code (some term_label) ≤ 0 then true
  else decide (parse_fic_term_code (some term_label) < spec_oldest_active y m window)

/-! ## Snapshot normalization (`utils.py`, `normalize_snapshot`)

`normalize_snapshot` is `json.dumps(obj, ensure_ascii=False, sort_keys=True,
separators=(",", ":"))`.  JSON values are modelled by `JVal`; `renderJVal`
is the dumps algorithm: compact separators, object keys emitted in sorted
order (Python compares strings by code point, modelled by `charListLtB`). -/

inductive JVal : Type
  | null : JVal
  | jbool : Bool → JVal
  | num : Int → JVal
  | str : String → JVal
  | arr : List JVal → JVal
  | obj : List (String × JVal) → JVal

/-- Code-point lexicographic strict comparison of character lists (Python's
`<` on `str`). -/
def charListLtB : List Char → List Char → Bool
  | [], [] => false
  | [], _ :: _ => true
  | _ :: _, [] => false
  | a :: as, b :: bs => if a < b then true else if b < a then false else charListLtB as bs

/-- Python `a < b` on strings. -/
def strLtB (a b : String) : Bool := charListLtB a.toList b.toList

/-- Python `a <= b` on strings. -/
def strLeB (a b : String) : Bool := strLtB a b || a == b

/-- Non-strict string order as a relation (for sorting). -/
def strLeP (a b : String) : Prop := strLeB a b = true

instance : DecidableRel strLeP := fun a b => inferInstanceAs (Decidable (_ = true))

/-- Order on `(key, rendered value)` pairs used when emitting object members
in sorted-key order. -/
def keyLeR (a b : String × String) : Prop := strLeB a.1 b.1 = true

instance : DecidableRel keyLeR := fun a b => inferInstanceAs (Decidable (_ = true))

/-- Hexadecimal digit character. -/
def hexDigit (n : Nat) : Char := if n < 10 then Char.ofNat (48 + n) else Char.ofNat (87 + n)

/-- JSON escaping of one character as `json.dumps` does with
`ensure_ascii=False`: escape the quote, backslash and control characters,
pass everything else through. -/
def escapeJsonChar (c : Char) : List Char :=
  if c = '"' then ['\\', '"']
  else if c = '\\' then ['\\', '\\']
  else if c = '\n' then ['\\', 'n']
  else if c = '\t' then ['\\', 't']
  else if c = '\r' then ['\\', 'r']
  else if c = '\x08' then ['\\', 'b']
  else if c = '\x0c' then ['\\', 'f']
  else if c.toNat < 32 then ['\\', 'u', '0', '0', hexDigit (c.toNat / 16), hexDigit (c.toNat % 16)]
  else [c]

/-- Rendering of a JSON string literal. -/
def renderJString (s : String) : String :=
  "\"" ++ (s.toList.flatMap escapeJsonChar).asString ++ "\""

mutual

/-- The `json.dumps` serialization with `sort_keys=True` and separators
`(",", ":")`: object members are emitted in ascending key order (values are
rendered first and then member pairs are sorted by key, which emits exactly
the same text as sorting before rendering, since a member's text depends
only on itself). -/
def renderJVal : JVal → String
  | .null => "null"
  | .jbool b => cond b "true" "false"
  | .num n => toString n
  | .str s => renderJString s
  | .arr l => "[" ++ String.intercalate "," (renderList l) ++ "]"
  | .obj o => "\x7b" ++ String.intercalate ","
      ((List.insertionSort keyLeR (renderPairs o)).map
        (fun kv => renderJString kv.1 ++ ":" ++ kv.2)) ++ "\x7d"

/-- Renders each element of an array. -/
def renderList : List JVal → List String
  | [] => []
  | v :: vs => renderJVal v :: renderList vs

/-- Renders each member value of an object, keeping its key. -/
def renderPairs : List (String × JVal) → List (String × String)
  | [] => []
  | kv :: kvs => (kv.1, renderJVal kv.2) :: renderPairs kvs

end

/-- `normalize_snapshot`: stable JSON serialization of a snapshot dict. -/
def normalize_snapshot (obj : List (String × JVal)) : String :=
  renderJVal (JVal.obj obj)

/-- Semantic equality of JSON values: equal scalars, pointwise-equivalent
arrays, and objects with the same key sets (no duplicate keys, any insertion
order) whose values agree key by key. -/
inductive JEquiv : JVal → JVal → Prop
  | null : JEquiv .null .null
  | jbool (b : Bool) : JEquiv (.jbool b) (.jbool b)
  | num (n : Int) : JEquiv (.num n) (.num n)
  | str (s : String) : JEquiv (.str s) (.str s)
  | arr (l₁ l₂ : List JVal) (hlen : l₁.length = l₂.length)
      (h : ∀ (i : Nat) (h₁ : i < l₁.length) (h₂ : i < l₂.length),
        JEquiv (l₁.get ⟨i, h₁⟩) (l₂.get ⟨i, h₂⟩)) : JEquiv (.arr l₁) (.arr l₂)
  | obj (o₁ o₂ : List (String × JVal))
      (hn₁ : (o₁.map Prod.fst).Nodup) (hn₂ : (o₂.map Prod.fst).Nodup)
      (hkeys : ∀ k, k ∈ o₁.map Prod.fst ↔ k ∈ o₂.map Prod.fst)
      (hvals : ∀ k v₁ v₂, (k, v₁) ∈ o₁ → (k, v₂) ∈ o₂ → JEquiv v₁ v₂) :
      JEquiv (.obj o₁) (.obj o₂)

/-! ## Flat grade diff (`messages.py`, `find_new_or_changed_fic_grades`)

The flat snapshot is `{term: {course_code: grade}}`.  The diff flattens both
sides to `{(term, code): stripped_grade}`, keeps new non-empty grades that
differ from the old value (absent key means the empty string), and sorts the
resulting `(code, grade)` pairs by Python tuple comparison. -/

abbrev FicGradesMap := List (String × List (String × String))

/-- Python tuple `(x[0], x[1])` comparison used by `changes.sort`. -/
def pairLeB (a b : String × String) : Bool :=
  strLtB a.1 b.1 || (a.1 == b.1 && strLeB a.2 b.2)

/-- Sort order on `(code, grade)` pairs as a relation. -/
def pairLe (a b : String × String) : Prop := pairLeB a b = true

instance : DecidableRel pairLe := fun a b => inferInstanceAs (Decidable (_ = true))

/-- `_flatten_grades_map`: flatten `{sem: {code: grade}}` into a dict keyed
by `(sem, code)` with stripped grades. -/
def _flatten_grades_map (m : FicGradesMap) : List ((String × String) × String) :=
  dictOfList (m.flatMap (fun p => p.2.map (fun q => ((p.1, q.1), pyStrip q.2))))

/-- `find_new_or_changed_fic_grades`: report `(code, new_grade)` for every
new non-empty grade differing from the stored one, sorted by
`(code, grade)`.  A `none` previous snapshot parses to the empty dict. -/
def find_new_or_changed_fic_grades (prev : Option FicGradesMap)
    (new_map : FicGradesMap) : List (String × String) :=
  let old_flat := _flatten_grades_map (prev.getD [])
  let new_flat := _flatten_grades_map new_map
  let changes := new_flat.filterMap (fun kv =>
    if kv.2 = "" then none
    else if (lookupD old_flat kv.1).getD "" ≠ kv.2 then some (kv.1.2, kv.2)
    else none)
  List.insertionSort pairLe changes

/-- Old grade for `(term, code)` per the spec: the nested map value, the
empty string when the term or the code is absent. -/
def oldGradeAt (m : FicGradesMap) (t c : String) : String :=
  match m.find? (fun p => p.1 = t) with
  | none => ""
  | some p =>
    match p.2.find? (fun q => q.1 = c) with
    | none => ""
    | some q => q.2

/-- Spec-side flat diff: exactly the pairs `(code, new_grade)` for `(term,
code)` keys of the new map whose grade is non-empty and differs from the old
grade, sorted by `(code, grade)`. -/
def spec_fic_changes (prev : Option FicGradesMap) (new_map : FicGradesMap) :
    List (String × String) :=
  List.insertionSort pairLe
    (new_map.flatMap (fun p => p.2.filterMap (fun q =>
      if q.2 ≠ "" ∧ oldGradeAt (prev.getD []) p.1 q.1 ≠ q.2 then some (q.1, q.2)
      else none)))

/-- Well-formedness of a Python nested dict: no duplicate keys at either
level. -/
def nodupFicMap (m : FicGradesMap) : Prop :=
  (m.map Prod.fst).Nodup ∧ ∀ p ∈ m, (p.2.map Prod.fst).Nodup

/-- All grades already stripped, as the extractor produces them. -/
def trimmedFicMap (m : FicGradesMap) : Prop :=
  ∀ p ∈ m, ∀ q ∈ p.2, pyStrip q.2 = q.2

instance (m : FicGradesMap) : Decidable (nodupFicMap m) := by
  unfold nodupFicMap; infer_instance

instance (m : FicGradesMap) : Decidable (trimmedFicMap m) := by
  unfold trimmedFicMap; infer_instance

/-! ## Recent-events ring buffer (`database.py`, `update_moodle_snapshot`)

When a batch of recent events accompanies a snapshot update, the stored list
becomes `(list(recent_events) + list(existing))[:50]`. -/

/-- The merge step of `update_moodle_snapshot`: prepend the new batch to the
stored list and truncate to the first 50 entries. -/
def merge_recent_changes {α : Type} (recent_events existing : List α) : List α :=
  (recent_events ++ existing).take 50

/-! ## Snapshot parsing (`utils.py`, `parse_snapshot`)

`json.loads` belongs to the external JSON library and is passed in as a
function returning `Except` (an exception is the `.error` case). -/

/-- `parse_snapshot`: `{}` for `None` or the empty string, the parsed value
on success, and `{}` again when the JSON parser raises. -/
def parse_snapshot (loads : String → Except String JVal) :
    Option String → JVal
  | none => JVal.obj []
  | some s =>
    if s = "" then JVal.obj []
    else
      match loads s with
      | .ok v => v
      | .error _ => JVal.obj []

/-- Reading of a parsed flat snapshot as `_flatten_grades_map` consumes it:
items of the top-level object, each value read as an object of string
grades.  (A non-object top level yields the empty map, matching the
`isinstance` guard; nested non-object or non-string values cannot occur in
snapshots the bot itself serialized.) -/
def jvalToFicMap : JVal → FicGradesMap
  | .obj kvs =>
    kvs.map (fun kv =>
      (kv.1,
        match kv.2 with
        | .obj ivs =>
          ivs.map (fun iv =>
            (iv.1, match iv.2 with | .str s => s | _ => ""))
        | _ => []))
  | _ => []

/-- Encoding of a flat grades map as the JSON value the bot serializes. -/
def ficMapToObj (m : FicGradesMap) : List (String × JVal) :=
  m.map (fun p => (p.1, JVal.obj (p.2.map (fun q => (q.1, JVal.str q.2)))))

/-! ## Monitoring cycle, FIC branch (`monitoring.py`, `monitor_fic_loop`)

One due FIC check of the per-user loop: fetch, then either record the
localized error, or clear the error, renormalize, compare hashes and update
the stored baseline.  `hash` stands for `compute_hash` (a fixed content
hash) and `loads` for the external JSON parser; `now` and timestamps are in
seconds. -/

/-- Bool substring test, Python `needle in hay` at a fixed start. -/
def charListHasPfx : List Char → List Char → Bool
  | [], _ => true
  | _ :: _, [] => false
  | n :: ns, h :: hs => n == h && charListHasPfx ns hs

/-- Bool substring test, Python `needle in hay`. -/
def containsCharList : List Char → List Char → Bool
  | [], needle => needle.isEmpty
  | h :: hs, needle => charListHasPfx needle (h :: hs) || containsCharList hs needle

/-- Python `needle in hay` on strings. -/
def pyContains (hay needle : String) : Bool :=
  containsCharList hay.toList needle.toList

/-- `_localize_known_error`: map any error whose lowered text contains both
`"invalid"` and `"password"` to the stable user-facing string. -/
def localize_known_error (err : String) : String :=
  let e := pyLower err
  if pyContains e "invalid" && pyContains e "password" then
    "Invalid login or password."
  else err

/-- Stored per-user FIC monitoring state (`fic_state` row). -/
structure FicState where
  last_snapshot : Option String
  last_hash : Option String
  last_error : Option String

/-- Result of one due FIC check: new stored state, next-due timestamp, and
the notification contents if one was sent. -/
structure FicCycleResult where
  state : FicState
  next_ts : Int
  notification : Option (List (String × String))

/-- One due FIC check of `monitor_fic_loop`: on a fetch error, record the
localized error and reschedule; on success, clear the error, serialize and
hash the new snapshot, and either install the first baseline, diff against
the stored one (notifying when the diff is non-empty), or keep everything
when the hash is unchanged.  Either way the next-due timestamp advances by
`max(5, CHECK_INTERVAL_SEC)`. -/
def monitor_fic_cycle (hash : String → String)
    (loads : String → Except String JVal) (check_interval_sec : Int)
    (now : Int) (st : FicState) (fetched : Except String FicGradesMap) :
    FicCycleResult :=
  match fetched with
  | .error e =>
    { state := { st with last_error := some (localize_known_error e) }
      next_ts := now + max 5 check_interval_sec
      notification := none }
  | .ok grades_map =>
    let st0 : FicState := { st with last_error := none }
    let snapshot_json := normalize_snapshot (ficMapToObj grades_map)
    let h := hash snapshot_json
    let fresh : FicState :=
      { last_snapshot := some snapshot_json, last_hash := some h,
        last_error := none }
    match st0.last_hash with
    | none =>
      { state := fresh, next_ts := now + max 5 check_interval_sec,
        notification := none }
    | some lh =>
      if lh = "" then
        { state := fresh, next_ts := now + max 5 check_interval_sec,
          notification := none }
      else if h ≠ lh then
        let changes := find_new_or_changed_fic_grades
          (some (jvalToFicMap (parse_snapshot loads st0.last_snapshot)))
          grades_map
        { state := fresh, next_ts := now + max 5 check_interval_sec,
          notification := if changes = [] then none else some changes }
      else
        { state := st0, next_ts := now + max 5 check_interval_sec,
          notification := none }

/-! ## Hierarchical Moodle diff (`messages.py`, `find_new_or_changed_moodle_items`)

Courses are keyed by integer `course_id`, items by string `item_id`; the
diff walks the new snapshot's courses, looks items up in the matching old
course, and emits at most one change record per item. -/

/-- The fields of a gradebook item the diff reads. -/
structure MoodleItem where
  item_id : String
  grade : String
  percentage : String
  feedback : String
deriving DecidableEq, Repr

/-- A course of the hierarchical snapshot as the diff sees it. -/
structure MoodleCourse where
  course_id : Int
  items : List MoodleItem
deriving DecidableEq, Repr

/-- A hierarchical snapshot: its ordered course list. -/
structure MoodleSnapshot where
  courses : List MoodleCourse
deriving DecidableEq, Repr

/-- One emitted change record: the course and the old/new item pair
(`old_item = none` for a newly appeared item). -/
structure MoodleChange where
  course : MoodleCourse
  old_item : Option MoodleItem
  new_item : MoodleItem
deriving DecidableEq, Repr

/-- The courses of the (possibly absent) previous snapshot. -/
def prevCoursesOf (prev : Option MoodleSnapshot) : List MoodleCourse :=
  (prev.map MoodleSnapshot.courses).getD []

/-- Items of the old course matching a course id (empty when the course is
absent from the previous snapshot). -/
def oldCourseItems (prev : Option MoodleSnapshot) (cid : Int) : List MoodleItem :=
  match (prevCoursesOf prev).find? (fun c => c.course_id = cid) with
  | none => []
  | some oc => oc.items

/-- The per-item body of the diff loop: skip empty ids; a new item is
reported only when it carries a grade, percentage or feedback; a matched
item is reported when the grade/percentage pair changed to something
non-empty, or else when the feedback changed to something non-empty. -/
def moodleItemStep (old_items : List (String × MoodleItem)) (c : MoodleCourse)
    (it : MoodleItem) : List MoodleChange :=
  if it.item_id = "" then []
  else
    match lookupD old_items it.item_id with
    | none =>
      if it.grade ≠ "" ∨ it.percentage ≠ "" ∨ it.feedback ≠ "" then
        [{ course := c, old_item := none, new_item := it }]
      else []
    | some old_it =>
      if (it.grade ≠ old_it.grade ∨ it.percentage ≠ old_it.percentage) ∧
          (it.grade ≠ "" ∨ it.percentage ≠ "") then
        [{ course := c, old_item := some old_it, new_item := it }]
      else if it.feedback ≠ old_it.feedback ∧ it.feedback ≠ "" then
        [{ course := c, old_item := some old_it, new_item := it }]
      else []

/-- `find_new_or_changed_moodle_items`: per-item changes of the hierarchical
snapshot.  A `none` previous snapshot parses to the empty dict. -/
def find_new_or_changed_moodle_items (prev : Option MoodleSnapshot)
    (snap : MoodleSnapshot) : List MoodleChange :=
  let prev_courses := dictOfList
    ((prevCoursesOf prev).map (fun c => (c.course_id, c)))
  let new_courses := dictOfList (snap.courses.map (fun c => (c.course_id, c)))
  new_courses.flatMap (fun p =>
    let old_c_items :=
      match lookupD prev_courses p.1 with
      | none => []
      | some oc => oc.items
    let old_items := dictOfList (old_c_items.map (fun it => (it.item_id, it)))
    p.2.items.flatMap (fun it => moodleItemStep old_items p.2 it))

/-- Spec-side lookup of the matching old item: the item of the corresponding
old course whose `item_id` matches, if any. -/
def oldItemOf (prev : Option MoodleSnapshot) (cid : Int) (iid : String) :
    Option MoodleItem :=
  match (prevCoursesOf prev).find? (fun c => c.course_id = cid) with
  | none => none
  | some oc => oc.items.find? (fun it => it.item_id = iid)

/-- A new item is noise unless it carries a grade, percentage or feedback. -/
def moodleHasContent (it : MoodleItem) : Prop :=
  it.grade ≠ "" ∨ it.percentage ≠ "" ∨ it.feedback ≠ ""

/-- The spec's per-item change condition for a matched item: the
`(grade, percentage)` pair changed and the new pair is non-empty, or the
feedback changed and the new feedback is non-empty. -/
def moodleChangedCond (old_it it : MoodleItem) : Prop :=
  ((it.grade, it.percentage) ≠ (old_it.grade, old_it.percentage) ∧
    (it.grade ≠ "" ∨ it.percentage ≠ "")) ∨
  (it.feedback ≠ old_it.feedback ∧ it.feedback ≠ "")

instance (it : MoodleItem) : Decidable (moodleHasContent it) := by
  unfold moodleHasContent; infer_instance

instance (old_it it : MoodleItem) : Decidable (moodleChangedCond old_it it) := by
  unfold moodleChangedCond; infer_instance

/-- Number of emitted events for a given course id and item id. -/
def countChangesFor (out : List MoodleChange) (cid : Int) (iid : String) : Nat :=
  out.countP (fun ch =>
    decide (ch.course.course_id = cid ∧ ch.new_item.item_id = iid))

/-- Data-model invariants of a hierarchical snapshot (spec section 3):
course ids unique, item ids unique within a course and non-empty. -/
def wfSnapshot (s : MoodleSnapshot) : Prop :=
  (s.courses.map MoodleCourse.course_id).Nodup ∧
  ∀ c ∈ s.courses, (c.items.map MoodleItem.item_id).Nodup ∧
    ∀ it ∈ c.items, it.item_id ≠ ""

instance (s : MoodleSnapshot) : Decidable (wfSnapshot s) := by
  unfold wfSnapshot; infer_instance

/-! ## Flat results extractor (`parsers/fic_results.py`, `parse_results`)

The extractor is modelled over the element tree the HTML library produces:
the optional results table, its optional `tbody`, and the `td` cells of each
body row.  Python list indexing can raise, so the extractor runs in
`Except`; the guards in the source keep every index in bounds. -/

/-- A `td` cell of the results table (its extracted text). -/
structure FicCell where
  text : String
deriving DecidableEq, Repr

/-- A `tr` of the results table body. -/
structure FicRow where
  tds : List FicCell
deriving DecidableEq, Repr

/-- The results table: `find("tbody")` may come up empty. -/
structure FicTable where
  tbodyRows : Option (List FicRow)
deriving DecidableEq, Repr

/-- A parsed results page: `find("table", class_="data-table")` may come up
empty. -/
structure FicDoc where
  table : Option FicTable
deriving DecidableEq, Repr

/-- Python list indexing `l[i]`: raises `IndexError` out of bounds. -/
def pyIndex {α : Type} (l : List α) (i : Nat) : Except String α :=
  match l.drop i with
  | [] => .error "IndexError"
  | x :: _ => .ok x

/-- `result.setdefault(semester, {})[code] = grade` on the nested dict. -/
def ficSetGrade (res : FicGradesMap) (sem code grade : String) : FicGradesMap :=
  if res.any (fun p => p.1 = sem) then
    res.map (fun p => if p.1 = sem then (p.1, dictInsert p.2 code grade) else p)
  else res ++ [(sem, [(code, grade)])]

/-- One body row of `parse_results`: skip rows with fewer than five cells,
read term, code and grade (columns 0, 1, 4), skip empty term or code, and
substitute the placeholder for an empty grade. -/
def parse_results_row (empty_grade : String) (res : FicGradesMap)
    (tr : FicRow) : Except String FicGradesMap :=
  let tds := tr.tds
  if tds.length < 5 then .ok res
  else
    match pyIndex tds 0, pyIndex tds 1, pyIndex tds 4 with
    | .error e, _, _ => .error e
    | _, .error e, _ => .error e
    | _, _, .error e => .error e
    | .ok t0, .ok t1, .ok t4 =>
      let semester := pyStrip t0.text
      let code := pyStrip t1.text
      let grade0 := pyStrip t4.text
      if semester = "" ∨ code = "" then .ok res
      else
        let grade := if grade0 = "" then empty_grade else grade0
        .ok (ficSetGrade res semester code grade)

/-- `parse_results`: the flat extractor over a parsed results page. -/
def parse_results (doc : FicDoc) (empty_grade : String) :
    Except String FicGradesMap :=
  match doc.table with
  | none => .ok []
  | some table =>
    match table.tbodyRows with
    | none => .ok []
    | some rows => rows.foldlM (parse_results_row empty_grade) []

/-! ## Moodle overview extractor (`parsers/moodle_results.py`,
`parse_moodle_overview_courses`)

Rows are modelled by the features the extractor queries: the first matching
`c0`/`c1` cells, their class lists, text, and embedded anchor.  URL query
parsing (`urlparse`/`parse_qs`/`int`, all inside a `try`) is modelled as a
total function with the `0` fallback; percent-escapes, which cannot occur in
the portal's numeric `id` parameters, are not decoded. -/

/-- `_clean`: replace non-breaking spaces and strip. -/
def mclean (s : String) : String :=
  pyStrip ((s.toList.map (fun c => if c = '\xa0' then ' ' else c)).asString)

/-- Python `str.startswith`. -/
def pyStartsWith (s pre : String) : Bool :=
  charListHasPfx pre.toList s.toList

/-- Split a character list at every separator (empty pieces kept). -/
def splitOn (sep : Char) : List Char → List Char → List (List Char)
  | [], acc => [acc.reverse]
  | c :: rest, acc =>
    if c = sep then acc.reverse :: splitOn sep rest []
    else splitOn sep rest (c :: acc)

/-- Query string of a URL: the part after the first `?`, the fragment (after
`#`) cut off first, as `urlparse` does. -/
def queryOfUrl (cs : List Char) : List Char :=
  let beforeFrag := cs.takeWhile (fun c => c ≠ '#')
  match beforeFrag.dropWhile (fun c => c ≠ '?') with
  | [] => []
  | _ :: rest => rest

/-- First value of the `id` query parameter as `parse_qs` yields it: fields
split on `&`, a field needs `=` and a non-empty value, `+` decodes to a
space. -/
def parse_qs_id (query : List Char) : Option (List Char) :=
  (splitOn '&' query []).findSome? (fun f =>
    let name := f.takeWhile (fun c => c ≠ '=')
    match f.dropWhile (fun c => c ≠ '=') with
    | [] => none
    | _ :: value =>
      if value = [] then none
      else if name = ("id".toList) then
        some (value.map (fun c => if c = '+' then ' ' else c))
      else none)

/-- Python `int(s)` on a decimal string (sign and surrounding whitespace
allowed), `none` when it would raise. -/
def pyInt (cs : List Char) : Option Int :=
  match stripChars cs with
  | '-' :: ds =>
    if ds ≠ [] ∧ ds.all Char.isDigit then some (-(digitsVal ds : Int)) else none
  | '+' :: ds =>
    if ds ≠ [] ∧ ds.all Char.isDigit then some (digitsVal ds : Int) else none
  | ds =>
    if ds ≠ [] ∧ ds.all Char.isDigit then some (digitsVal ds : Int) else none

/-- Course id from a course link: `int(parse_qs(urlparse(url).query).get("id")
or ["0"])[0])` with the whole lookup wrapped in `try`, falling back to 0. -/
def courseIdFromUrl (url : String) : Int :=
  match parse_qs_id (queryOfUrl url.toList) with
  | none => 0
  | some v =>
    match pyInt v with
    | some n => n
    | none => 0

/-- Match of `^(FIC)\s+(\d{6})\s+([^\s]+)` returning the term digits and the
course token. -/
def matchFicHead : List Char → Option (List Char × List Char)
  | 'F' :: 'I' :: 'C' :: rest =>
    if rest.takeWhile Char.isWhitespace = [] then none
    else
      let r2 := rest.dropWhile Char.isWhitespace
      let ds := r2.take 6
      if ds.length = 6 ∧ ds.all Char.isDigit then
        let r3 := r2.drop 6
        if r3.takeWhile Char.isWhitespace = [] then none
        else
          let r4 := r3.dropWhile Char.isWhitespace
          let token := r4.takeWhile (fun c => !c.isWhitespace)
          if token = [] then none else some (ds, token)
      else none
  | _ => none

/-- Match of `\b([A-Z]{2,6}\d{2,4})\b` at the current position: maximal
upper-case and digit runs of the right lengths between word boundaries. -/
def codeAt (prev : Option Char) (cs : List Char) : Option (List Char) :=
  let ls := cs.takeWhile Char.isUpper
  let rest := cs.dropWhile Char.isUpper
  let ds := rest.takeWhile Char.isDigit
  let after := rest.dropWhile Char.isDigit
  if (match prev with | none => true | some p => !isWordChar p) &&
      (2 ≤ ls.length && ls.length ≤ 6) && (2 ≤ ds.length && ds.length ≤ 4) &&
      (match after with | [] => true | c :: _ => !isWordChar c) then
    some (ls ++ ds)
  else none

/-- Leftmost `\b([A-Z]{2,6}\d{2,4})\b` match, as `re.search` finds it. -/
def searchCourseCode : Option Char → List Char → Option (List Char)
  | prev, [] => codeAt prev []
  | prev, c :: rest =>
    match codeAt prev (c :: rest) with
    | some r => some r
    | none => searchCourseCode (some c) rest

/-- `_split_course_label`: `(term_label, course_code)` from a Moodle course
title, primary pattern `FIC YYYYTT TOKEN` with heuristic code-sniffing
fallback. -/
def _split_course_label (course_name : String) : String × String :=
  let s := mclean course_name
  if s = "" then ("Moodle", "")
  else
    let up := pyUpper (wsNormalize s)
    match matchFicHead up.toList with
    | some dt =>
      let raw := dt.2.takeWhile (fun c => c ≠ '_')
      ("FIC " ++ dt.1.asString,
        (raw.filter (fun c => c.isUpper || c.isDigit)).asString)
    | none =>
      match searchCourseCode none up.toList with
      | some code => ("Moodle", code.asString)
      | none => ("Moodle", "")

/-- An anchor (`<a>`) inside an overview cell. -/
structure MoodleAnchor where
  href : Option String
  text : String
deriving DecidableEq, Repr

/-- A cell (`th` or `td`) of an overview row. -/
structure OverviewCell where
  isTh : Bool
  classes : List String
  text : String
  anchor : Option MoodleAnchor
deriving DecidableEq, Repr

/-- A row of the overview table. -/
structure OverviewRow where
  cells : List OverviewCell
deriving DecidableEq, Repr

/-- A parsed overview page: `find("table", id="overview-grade")` may come up
empty. -/
structure OverviewDoc where
  table : Option (List OverviewRow)
deriving DecidableEq, Repr

/-- A course row of the overview table, as the extractor returns it. -/
structure MoodleCourseOverview where
  course_id : Int
  name : String
  url : String
  grade : String
  archived : Bool
  term_label : String
  course_code : String
deriving DecidableEq, Repr

/-- One row of the overview loop, threading the output and the seen-id set:
skip rows without `c0`/`c1` cells, the header row, rows with empty or
placeholder links, rows without a course grade-report link, unnamed courses,
non-positive ids and duplicate ids; normalize the grade (dashes and stray
course-title text become the placeholder) and split the title. -/
def parse_overview_row (empty_grade : String)
    (st : List MoodleCourseOverview × List Int) (row : OverviewRow) :
    List MoodleCourseOverview × List Int :=
  match row.cells.find? (fun cl => "c0" ∈ cl.classes),
      row.cells.find? (fun cl => !cl.isTh && "c1" ∈ cl.classes) with
  | some c0, some c1 =>
    let header_text := pyLower (mclean c0.text)
    if header_text = "course name" ∨ header_text = "course name grade" ∨
        header_text = "course name\xa0grade" then st
    else
      let url := match c0.anchor with
        | none => ""
        | some a => a.href.getD ""
      if url = "" ∨ url = "#" ∨ url = "/" then st
      else if ¬ (pyContains url "course/user.php" = true) then st
      else
        let course_name := mclean (match c0.anchor with
          | none => c0.text
          | some a => a.text)
        if course_name = "" then st
        else
          let course_id := courseIdFromUrl url
          if course_id ≤ 0 then st
          else if course_id ∈ st.2 then st
          else
            let grade0 := mclean c1.text
            let grade1 :=
              if grade0 = "-" ∨ grade0 = "–" ∨ grade0 = "—" then empty_grade
              else grade0
            let grade :=
              if pyContains grade1 "FIC" = true ∧
                  ¬ (pyContains grade1 "course/user.php" = true) then empty_grade
              else grade1
            let tc := _split_course_label course_name
            let archived :=
              pyContains (pyLower course_name) "(archived)" || tc.2 == ""
            (st.1 ++ [MoodleCourseOverview.mk course_id course_name url grade
                archived tc.1 tc.2],
              st.2 ++ [course_id])
  | _, _ => st

/-- `parse_moodle_overview_courses`: the overview extractor. -/
def parse_moodle_overview_courses (doc : OverviewDoc) (empty_grade : String) :
    List MoodleCourseOverview :=
  match doc.table with
  | none => []
  | some rows => (rows.foldl (parse_overview_row empty_grade) ([], [])).1

/-! ## Moodle course report extractor (`parsers/moodle_results.py`,
`parse_moodle_course_report`)

Rows carry the features the extractor reads: the row's class list, its `th`
cells (id, classes, text, optional `gradeitemheader` element) and its `td`
cells.  `sha1` (the `item_id` fallback for rows without a stable id) is the
external hash library, passed in as a function. -/

/-- The `gradeitemheader` element inside a row header. -/
structure ReportHdr where
  isA : Bool
  title : Option String
  text : String
  href : Option String
deriving DecidableEq, Repr

/-- A `th` cell of the report table. -/
structure ReportTh where
  id : String
  classes : List String
  text : String
  hdr : Option ReportHdr
deriving DecidableEq, Repr

/-- A `td` cell of the report table. -/
structure ReportCell where
  text : String
deriving DecidableEq, Repr

/-- A `tr` of the report table. -/
structure ReportRow where
  classes : List String
  ths : List ReportTh
  tds : List ReportCell
deriving DecidableEq, Repr

/-- A parsed report page: `find("table", class_="user-grade")` may come up
empty. -/
structure ReportDoc where
  table : Option (List ReportRow)
deriving DecidableEq, Repr

/-- An extracted grade item row. -/
structure MoodleGradeItem where
  item_id : String
  name : String
  grade : String
  range : String
  percentage : String
  feedback : String
  link : Option String
  level : Nat
  category_path : String
deriving DecidableEq, Repr

/-- Case-insensitive prefix test against a lower-case needle. -/
def ciHasPfx : List Char → List Char → Bool
  | [], _ => true
  | _ :: _, [] => false
  | n :: ns, h :: hs => (h.toLower == n) && ciHasPfx ns hs

/-- Match of `\b(Collapse|Expand)\b` (case-insensitive) at the current
position; returns the remainder after the matched token. -/
def tokenAt (prev : Option Char) (cs : List Char) : Option (List Char) :=
  if (match prev with | none => true | some p => !isWordChar p) then
    if ciHasPfx "collapse".toList cs then
      match cs.drop 8 with
      | [] => some []
      | c :: rest => if isWordChar c then none else some (c :: rest)
    else if ciHasPfx "expand".toList cs then
      match cs.drop 6 with
      | [] => some []
      | c :: rest => if isWordChar c then none else some (c :: rest)
    else none
  else none

/-- Left-to-right removal of `\b(Collapse|Expand)\b` tokens, as `re.sub`
scans (fuelled by the string length; a matched token always ends in a word
character, recorded as the previous character). -/
def stripTokensAux : Nat → Option Char → List Char → List Char
  | 0, _, cs => cs
  | fuel + 1, prev, cs =>
    match tokenAt prev cs with
    | some rest => stripTokensAux fuel (some 'd') rest
    | none =>
      match cs with
      | [] => []
      | c :: rest => c :: stripTokensAux fuel (some c) rest

/-- `_strip_expand_collapse_tokens`: drop the UI affordance tokens and
normalize whitespace. -/
def _strip_expand_collapse_tokens (s : String) : String :=
  wsNormalize ((stripTokensAux (s.toList.length + 1) none s.toList).asString)

/-- Category id of `re.match(r"cat_(\d+)", text)`. -/
def catIdOf (tid : String) : Option String :=
  if pyStartsWith tid "cat_" then
    let ds := (tid.toList.drop 4).takeWhile Char.isDigit
    if ds = [] then none else some ds.asString
  else none

/-- Nesting level of one class token, `re.match(r"level(\d+)", x)`. -/
def levelOfClass (c : String) : Option Nat :=
  if pyStartsWith c "level" then
    let ds := (c.toList.drop 5).takeWhile Char.isDigit
    if ds = [] then none else some (digitsVal ds)
  else none

/-- `_row_level`: the first `level<digits>` class, else 0. -/
def rowLevel (classes : List String) : Nat :=
  (classes.findSome? levelOfClass).getD 0

/-- The category table: for each category header row (a `cat_<id>` th with
the `category` class), record `(nesting level, cleaned name)` under the id;
a later row with the same id overwrites the entry (dict assignment). -/
def buildCatInfo (rows : List ReportRow) : List (String × (Nat × String)) :=
  rows.foldl (fun acc tr =>
    match tr.ths.head? with
    | none => acc
    | some th =>
      if ¬ (pyStartsWith th.id "cat_" = true) then acc
      else if ¬ ("category" ∈ th.classes) then acc
      else
        match catIdOf th.id with
        | none => acc
        | some cat_id =>
          let name := _strip_expand_collapse_tokens (mclean th.text)
          let level := rowLevel th.classes
          if name ≠ "" then dictInsert acc cat_id (level, name) else acc) []

/-- Sort order of category references: ascending nesting level. -/
def levelLe (a b : Nat × String) : Prop := a.1 ≤ b.1

instance : DecidableRel levelLe := fun a b => Nat.decLe a.1 b.1

/-- Category path of a row: resolve every `cat_<id>` class through the
category table, sort by ascending nesting level (stable), and join the
names with the separator. -/
def categoryPathOf (cat_info : List (String × (Nat × String)))
    (tr_classes : List String) : String :=
  let cats := tr_classes.filterMap (fun cl =>
    match catIdOf cl with
    | none => none
    | some cid => lookupD cat_info cid)
  String.intercalate " > " ((List.insertionSort levelLe cats).map Prod.snd)

/-- Stable item id: `row_<digits>` when the header id matches, else a
hash-derived fallback over id, classes and display text. -/
def rowItemId (hashFn : String → String) (tid : String)
    (tr_classes : List String) (th_text : String) : String :=
  let matched :=
    if pyStartsWith tid "row_" then
      let ds := (tid.toList.drop 4).takeWhile Char.isDigit
      if ds = [] then none else some ("row_" ++ ds.asString)
    else none
  match matched with
  | some iid => iid
  | none =>
    "row_" ++ ((hashFn (tid ++ "|" ++ String.intercalate "|" tr_classes ++ "|"
      ++ mclean th_text)).toList.take 10).asString

/-- Semantic key of one header column, matched case-insensitively. -/
def colKeyOf (th : ReportTh) : Option String :=
  let t := pyLower (mclean th.text)
  if pyStartsWith t "grade" && !(pyContains t "item") then some "grade"
  else if pyContains t "range" then some "range"
  else if pyContains t "percentage" then some "percentage"
  else if pyContains t "feedback" then some "feedback"
  else none

/-- The four data-column values of an item row. -/
structure ColVals where
  grade : String
  range : String
  percentage : String
  feedback : String
deriving DecidableEq, Repr

/-- Assignment of one cell value to the field its column maps to. -/
def applyCol (cv : ColVals) (key : Option String) (val : String) : ColVals :=
  match key with
  | none => cv
  | some k =>
    if k = "grade" then { cv with grade := val }
    else if k = "range" then { cv with range := val }
    else if k = "percentage" then { cv with percentage := val }
    else if k = "feedback" then { cv with feedback := val }
    else cv

/-- Values of the item row's `td` cells by mapped column (dashes normalize
to the empty string; unmapped columns are ignored). -/
def colValsOf (col_keys : List (Option String)) (tds : List ReportCell) :
    ColVals :=
  tds.enum.foldl (fun cv p =>
    let key := col_keys.getD p.1 none
    let val0 := mclean p.2.text
    let val := if val0 = "-" ∨ val0 = "–" ∨ val0 = "—" then "" else val0
    applyCol cv key val) ⟨"", "", "", ""⟩

/-- One row of the item loop: skip spacer rows, rows without a `th`, the
header row and category header rows; otherwise extract the item. -/
def itemOfRow (hashFn : String → String)
    (cat_info : List (String × (Nat × String)))
    (col_keys : List (Option String)) (tr : ReportRow) :
    Option MoodleGradeItem :=
  if "spacer" ∈ tr.classes then none
  else
    match tr.ths.head? with
    | none => none
    | some th =>
      if "header" ∈ th.classes then none
      else if pyStartsWith th.id "cat_" && decide ("category" ∈ th.classes) then
        none
      else
        let item_id := rowItemId hashFn th.id tr.classes th.text
        let name0 :=
          match th.hdr with
          | some hdr =>
            mclean (match hdr.title with
              | none => hdr.text
              | some t => if t = "" then hdr.text else t)
          | none => mclean th.text
        let name := wsNormalize name0
        let link :=
          match th.hdr with
          | some hdr =>
            if hdr.isA then
              match hdr.href with
              | none => none
              | some h => if h = "" then none else some h
            else none
          | none => none
        let level := rowLevel th.classes
        let category_path := categoryPathOf cat_info tr.classes
        let cv := colValsOf col_keys tr.tds
        some (MoodleGradeItem.mk item_id name cv.grade cv.range cv.percentage
          cv.feedback link level category_path)

/-- `parse_moodle_course_report`: the hierarchical gradebook extractor. -/
def parse_moodle_course_report (hashFn : String → String) (doc : ReportDoc) :
    List MoodleGradeItem :=
  match doc.table with
  | none => []
  | some rows =>
    let header_tr :=
      match rows.find? (fun tr => decide (tr.ths ≠ []) &&
          tr.ths.all (fun th => decide ("header" ∈ th.classes))) with
      | some tr => some tr
      | none => rows.head?
    let header_ths := match header_tr with | none => [] | some tr => tr.ths
    let col_keys := (header_ths.drop 1).map colKeyOf
    let cat_info := buildCatInfo rows
    rows.filterMap (itemOfRow hashFn cat_info col_keys)

/-- Spec-side dict insertion that keeps the first-seen binding. -/
def dictInsertNew {α β : Type} [DecidableEq α] (d : List (α × β)) (k : α)
    (v : β) : List (α × β) :=
  if (lookupD d k).isSome then d else d ++ [(k, v)]

/-- Modelled from the spec: the category table as the spec describes it,
with duplicate category ids keeping the first-seen mapping (the code's dict
assignment keeps the last-seen one instead). -/
def buildCatInfoFirstSeen (rows : List ReportRow) :
    List (String × (Nat × String)) :=
  rows.foldl (fun acc tr =>
    match tr.ths.head? with
    | none => acc
    | some th =>
      if ¬ (pyStartsWith th.id "cat_" = true) then acc
      else if ¬ ("category" ∈ th.classes) then acc
      else
        match catIdOf th.id with
        | none => acc
        | some cat_id =>
          let name := _strip_expand_collapse_tokens (mclean th.text)
          let level := rowLevel th.classes
          if name ≠ "" then dictInsertNew acc cat_id (level, name) else acc) []

/-- A category header row of the sample tables. -/
def sampleCatRow (cid lvl nm : String) : ReportRow :=
  ⟨[cid, lvl], [⟨cid, ["category", lvl], nm, none⟩], []⟩

/-- An item row of the sample tables. -/
def sampleItemRow (iid : String) (cats : List String) (nm : String) :
    ReportRow :=
  ⟨cats ++ ["level2"], [⟨iid, ["level2"], nm, none⟩], [⟨"10"⟩]⟩

/-! ## Theorems -/

theorem dictInsert_of_not_mem {α β : Type} [DecidableEq α]
    (d : List (α × β)) (k : α) (v : β) (h : ∀ p ∈ d, p.1 ≠ k) :
    dictInsert d k v = d ++ [(k, v)] := by
  unfold dictInsert
  rw [if_neg]
  simp only [List.any_eq_true, decide_eq_true_eq, not_exists]
  intro p hp
  exact h p hp.1 hp.2

theorem foldl_dictInsert_nodup {α β : Type} [DecidableEq α]
    (ps : List (α × β)) (acc : List (α × β))
    (h : ((acc ++ ps).map Prod.fst).Nodup) :
    ps.foldl (fun d p => dictInsert d p.1 p.2) acc = acc ++ ps := by
  induction ps generalizing acc with
  | nil => simp
  | cons p rest ih =>
    simp only [List.foldl_cons]
    have hnotin : ∀ q ∈ acc, q.1 ≠ p.1 := by
      intro q hq hqp
      have hmem : q.1 ∈ acc.map Prod.fst := List.mem_map_of_mem _ hq
      have hsplit : ((acc.map Prod.fst) ++ (p.1 :: rest.map Prod.fst)).Nodup := by
        simpa [List.map_append] using h
      have hdis := List.disjoint_of_nodup_append hsplit
      exact hdis (by simpa [hqp] using hmem) (by simp)
    rw [dictInsert_of_not_mem _ _ _ hnotin]
    have h2 : (((acc ++ [(p.1, p.2)]) ++ rest).map Prod.fst).Nodup := by
      simpa using h
    have := ih (acc ++ [(p.1, p.2)]) h2
    simpa using this

/-- On binding lists with no duplicate keys, building the dict is the
identity. -/
theorem dictOfList_eq_self {α β : Type} [DecidableEq α]
    (ps : List (α × β)) (h : (ps.map Prod.fst).Nodup) :
    dictOfList ps = ps := by
  unfold dictOfList
  simpa using foldl_dictInsert_nodup ps [] (by simpa using h)

theorem lookupD_map_key {α β : Type} [DecidableEq α] (f : β → α)
    (l : List β) (k : α) :
    lookupD (l.map (fun x => (f x, x))) k = l.find? (fun x => f x = k) := by
  induction l with
  | nil => rfl
  | cons x rest ih =>
    simp only [List.map_cons, lookupD, List.find?]
    by_cases hx : f x = k
    · simp [hx]
    · simp [hx, ih]

theorem ediv_100_decompose (y t : Int) (h0 : 0 ≤ t) (h1 : t < 100) :
    (y * 100 + t) / 100 = y ∧ (y * 100 + t) % 100 = t := by
  constructor <;> omega

theorem fic_term_prev_loop_eq_spec (n : Nat) (y t : Int)
    (ht : t = 1 ∨ t = 2 ∨ t = 3) :
    fic_term_prev_loop n (y, t) = spec_term_step_back n (y, t) := by
  induction n generalizing y t with
  | zero => rfl
  | succ k ih =>
    rcases ht with h | h | h <;> subst h <;>
      simp only [fic_term_prev_loop, spec_term_step_back] <;> norm_num
    · exact ih (y - 1) 3 (by norm_num)
    · exact ih y 1 (by norm_num)
    · exact ih y 2 (by norm_num)

theorem current_term_eq_quarter (y m : Int) (h1 : 1 ≤ m) :
    current_fic_term_code y m = y * 100 + spec_quarter m := by
  simp only [current_fic_term_code, spec_quarter]
  split_ifs <;> omega

theorem clamp_active_terms_eq (a : Int) :
    clamp_active_terms a = max 1 (min 6 a) := by
  simp only [clamp_active_terms]
  split_ifs <;> omega

theorem spec_quarter_cases (m : Int) :
    spec_quarter m = 1 ∨ spec_quarter m = 2 ∨ spec_quarter m = 3 := by
  simp only [spec_quarter]
  split_ifs <;> simp

theorem oldest_active_bridge (window y m : Int) (h1 : 1 ≤ m) :
    fic_term_prev (current_fic_term_code y m) (clamp_active_terms window - 1).toNat
      = spec_oldest_active y m window := by
  have hq := spec_quarter_cases m
  have hq01 : 0 ≤ spec_quarter m := by rcases hq with h | h | h <;> omega
  have hq99 : spec_quarter m < 100 := by rcases hq with h | h | h <;> omega
  rw [clamp_active_terms_eq, current_term_eq_quarter y m h1]
  simp only [fic_term_prev, spec_oldest_active]
  rw [(ediv_100_decompose y (spec_quarter m) hq01 hq99).1,
      (ediv_100_decompose y (spec_quarter m) hq01 hq99).2,
      fic_term_prev_loop_eq_spec _ y (spec_quarter m) hq]

/-- C3. The archival classifier agrees with the spec's ordered rules: an
empty course code, a raw portal archived flag, or an unparsable term label
each force `archived`; otherwise the course is archived exactly when its term
code is strictly older than the current quarter-mapped term code stepped back
`window - 1` terms (window clamped to `[1,6]`, term 1 rolling over to term 3
of the previous year); and stepping one term back from `YYYY01` yields
`(YYYY-1)03`. -/
theorem archive_policy_matches_spec (window y m : Int) (raw : Bool)
    (term_label course_code : String) (hm1 : 1 ≤ m) (hm2 : m ≤ 12) :
    apply_archive_policy window y m raw term_label course_code =
      spec_archived window y m raw term_label course_code ∧
    (∀ z : Int, fic_term_prev (z * 100 + 1) 1 = (z - 1) * 100 + 3) := by
  constructor
  · simp only [apply_archive_policy, spec_archived]
    by_cases hcc : pyStrip course_code = ""
    · simp [hcc]
    · by_cases hraw : raw
      · simp [hcc, hraw]
      · by_cases htc : parse_fic_term_code (some term_label) ≤ 0
        · simp [hcc, hraw, htc]
        · simp only [hcc, hraw, htc, if_false, Bool.false_eq_true]
          rw [oldest_active_bridge window y m hm1]
  · intro z
    simp only [fic_term_prev]
    rw [(ediv_100_decompose z 1 (by omega) (by omega)).1,
        (ediv_100_decompose z 1 (by omega) (by omega)).2]
    simp [fic_term_prev_loop]

/-- C3 witness: concrete instantiation (October 2025, window 1, a current-term
course compared against the spec side). -/
theorem archive_policy_matches_spec_witness :
    (1 : Int) ≤ 10 ∧ (10 : Int) ≤ 12 ∧
      (apply_archive_policy 1 2025 10 false "FIC 202503" "CMPT130" =
        spec_archived 1 2025 10 false "FIC 202503" "CMPT130" ∧
       (∀ z : Int, fic_term_prev (z * 100 + 1) 1 = (z - 1) * 100 + 3)) :=
  ⟨by norm_num, by norm_num,
    archive_policy_matches_spec 1 2025 10 false "FIC 202503" "CMPT130"
      (by norm_num) (by norm_num)⟩

theorem charListLtB_irrefl : ∀ cs, charListLtB cs cs = false
  | [] => rfl
  | c :: cs => by
    simp only [charListLtB, if_neg (lt_irrefl c)]
    exact charListLtB_irrefl cs

theorem charListLtB_trans :
    ∀ a b c : List Char, charListLtB a b = true → charListLtB b c = true →
      charListLtB a c = true := by
  intro a
  induction a with
  | nil =>
    intro b c hab hbc
    cases b with
    | nil => simp [charListLtB] at hab
    | cons y ys =>
      cases c with
      | nil => simp [charListLtB] at hbc
      | cons z zs => simp [charListLtB]
  | cons x xs ih =>
    intro b c hab hbc
    cases b with
    | nil => simp [charListLtB] at hab
    | cons y ys =>
      cases c with
      | nil => simp [charListLtB] at hbc
      | cons z zs =>
        simp only [charListLtB] at hab hbc ⊢
        rcases lt_trichotomy x y with hxy | hxy | hxy
        · rcases lt_trichotomy y z with hyz | hyz | hyz
          · rw [if_pos (lt_trans hxy hyz)]
          · subst hyz; rw [if_pos hxy]
          · rw [if_neg (lt_asymm hyz), if_pos hyz] at hbc
            simp at hbc
        · subst hxy
          rw [if_neg (lt_irrefl x), if_neg (lt_irrefl x)] at hab
          rcases lt_trichotomy x z with hxz | hxz | hxz
          · rw [if_pos hxz]
          · subst hxz
            rw [if_neg (lt_irrefl x), if_neg (lt_irrefl x)] at hbc ⊢
            exact ih ys zs hab hbc
          · rw [if_neg (lt_asymm hxz), if_pos hxz] at hbc
            simp at hbc
        · rw [if_neg (lt_asymm hxy), if_pos hxy] at hab
          simp at hab

theorem charListLtB_total :
    ∀ a b : List Char, charListLtB a b = true ∨ a = b ∨ charListLtB b a = true := by
  intro a
  induction a with
  | nil =>
    intro b
    cases b with
    | nil => right; left; rfl
    | cons y ys => left; simp [charListLtB]
  | cons x xs ih =>
    intro b
    cases b with
    | nil => right; right; simp [charListLtB]
    | cons y ys =>
      rcases lt_trichotomy x y with hxy | hxy | hxy
      · left; simp [charListLtB, if_pos hxy]
      · subst hxy
        rcases ih ys with h | h | h
        · left; simp [charListLtB, if_neg (lt_irrefl x), h]
        · right; left; rw [h]
        · right; right; simp [charListLtB, if_neg (lt_irrefl x), h]
      · right; right; simp [charListLtB, if_pos hxy]

theorem string_toList_inj {a b : String} (h : a.toList = b.toList) : a = b := by
  cases a; cases b
  exact congrArg String.mk (by simpa [String.toList] using h)

theorem strLeP_total (a b : String) : strLeP a b ∨ strLeP b a := by
  rcases charListLtB_total a.toList b.toList with h | h | h
  · left
    simp only [strLeP, strLeB, strLtB, Bool.or_eq_true]
    exact Or.inl h
  · left
    simp only [strLeP, strLeB, strLtB, Bool.or_eq_true, beq_iff_eq]
    exact Or.inr (string_toList_inj h)
  · right
    simp only [strLeP, strLeB, strLtB, Bool.or_eq_true]
    exact Or.inl h

theorem strLeP_trans {a b c : String} (hab : strLeP a b) (hbc : strLeP b c) :
    strLeP a c := by
  simp only [strLeP, strLeB, strLtB, Bool.or_eq_true, beq_iff_eq] at hab hbc ⊢
  rcases hab with hab | hab
  · rcases hbc with hbc | hbc
    · exact Or.inl (charListLtB_trans _ _ _ hab hbc)
    · subst hbc; exact Or.inl hab
  · subst hab; exact hbc

theorem strLeP_antisymm {a b : String} (hab : strLeP a b) (hba : strLeP b a) :
    a = b := by
  simp only [strLeP, strLeB, strLtB, Bool.or_eq_true, beq_iff_eq] at hab hba
  rcases hab with hab | hab
  · rcases hba with hba | hba
    · have := charListLtB_trans _ _ _ hab hba
      rw [charListLtB_irrefl] at this
      simp at this
    · exact hba.symm
  · exact hab

instance : IsTrans (String × String) keyLeR :=
  ⟨fun _ _ _ hab hbc => strLeP_trans hab hbc⟩

instance : IsTotal (String × String) keyLeR :=
  ⟨fun a b => strLeP_total a.1 b.1⟩

instance : IsAntisymm String strLeP := ⟨fun _ _ => strLeP_antisymm⟩

instance : IsTrans String strLeP := ⟨fun _ _ _ => strLeP_trans⟩

instance : IsTotal String strLeP := ⟨strLeP_total⟩

theorem renderList_eq_map (l : List JVal) : renderList l = l.map renderJVal := by
  induction l with
  | nil => rfl
  | cons v vs ih => simp [renderList, ih]

theorem renderPairs_eq_map (o : List (String × JVal)) :
    renderPairs o = o.map (fun kv => (kv.1, renderJVal kv.2)) := by
  induction o with
  | nil => rfl
  | cons kv kvs ih => simp [renderPairs, ih]

theorem map_get_eq_map {α β : Type} (f : α → β) :
    ∀ (l₁ l₂ : List α), l₁.length = l₂.length →
      (∀ (i : Nat) (h₁ : i < l₁.length) (h₂ : i < l₂.length),
        f (l₁.get ⟨i, h₁⟩) = f (l₂.get ⟨i, h₂⟩)) →
      l₁.map f = l₂.map f := by
  intro l₁
  induction l₁ with
  | nil =>
    intro l₂ hlen _
    cases l₂ with
    | nil => rfl
    | cons y ys => simp at hlen
  | cons x xs ih =>
    intro l₂ hlen h
    cases l₂ with
    | nil => simp at hlen
    | cons y ys =>
      simp only [List.map_cons]
      have h0 := h 0 (by simp) (by simp)
      simp only [List.get] at h0
      rw [h0]
      have := ih ys (by simpa using hlen)
        (fun i h₁ h₂ => by simpa using h (i + 1) (by simpa using h₁) (by simpa using h₂))
      rw [this]

theorem pairs_eq_of_keys_eq (m₁ m₂ : List (String × String))
    (hvals : ∀ k v₁ v₂, (k, v₁) ∈ m₁ → (k, v₂) ∈ m₂ → v₁ = v₂) :
    ∀ (t₁ t₂ : List (String × String)), t₁.map Prod.fst = t₂.map Prod.fst →
      (∀ p ∈ t₁, p ∈ m₁) → (∀ p ∈ t₂, p ∈ m₂) → t₁ = t₂ := by
  intro t₁
  induction t₁ with
  | nil =>
    intro t₂ hk _ _
    cases t₂ with
    | nil => rfl
    | cons q qs => simp at hk
  | cons p ps ih =>
    intro t₂ hk hm₁ hm₂
    cases t₂ with
    | nil => simp at hk
    | cons q qs =>
      simp only [List.map_cons, List.cons.injEq] at hk
      have hpq : p = q := by
        have hv : p.2 = q.2 := by
          apply hvals p.1 p.2 q.2
          · exact (by simpa using hm₁ p (by simp))
          · have : (p.1, q.2) = q := by
              rw [Prod.ext_iff]; exact ⟨hk.1, rfl⟩
            rw [this]
            exact hm₂ q (by simp)
        rw [Prod.ext_iff]
        exact ⟨hk.1, hv⟩
      rw [hpq]
      congr 1
      exact ih qs hk.2 (fun r hr => hm₁ r (by simp [hr])) (fun r hr => hm₂ r (by simp [hr]))

theorem insertionSort_pairs_eq (m₁ m₂ : List (String × String))
    (hn₁ : (m₁.map Prod.fst).Nodup) (hn₂ : (m₂.map Prod.fst).Nodup)
    (hkeys : ∀ k, k ∈ m₁.map Prod.fst ↔ k ∈ m₂.map Prod.fst)
    (hvals : ∀ k v₁ v₂, (k, v₁) ∈ m₁ → (k, v₂) ∈ m₂ → v₁ = v₂) :
    List.insertionSort keyLeR m₁ = List.insertionSort keyLeR m₂ := by
  have hp₁ := List.perm_insertionSort keyLeR m₁
  have hp₂ := List.perm_insertionSort keyLeR m₂
  have hs₁ := List.sorted_insertionSort keyLeR m₁
  have hs₂ := List.sorted_insertionSort keyLeR m₂
  have hkperm : ((List.insertionSort keyLeR m₁).map Prod.fst).Perm
      ((List.insertionSort keyLeR m₂).map Prod.fst) := by
    refine ((hp₁.map Prod.fst).trans ?_).trans (hp₂.map Prod.fst).symm
    exact (List.perm_ext_iff_of_nodup hn₁ hn₂).mpr hkeys
  have hksorted₁ : List.Sorted strLeP ((List.insertionSort keyLeR m₁).map Prod.fst) :=
    List.Pairwise.map Prod.fst (fun _ _ h => h) hs₁
  have hksorted₂ : List.Sorted strLeP ((List.insertionSort keyLeR m₂).map Prod.fst) :=
    List.Pairwise.map Prod.fst (fun _ _ h => h) hs₂
  have hkeq : (List.insertionSort keyLeR m₁).map Prod.fst =
      (List.insertionSort keyLeR m₂).map Prod.fst :=
    List.eq_of_perm_of_sorted hkperm hksorted₁ hksorted₂
  exact pairs_eq_of_keys_eq m₁ m₂ hvals _ _ hkeq
    (fun p hp => hp₁.subset hp) (fun p hp => hp₂.subset hp)

theorem renderJVal_eq_of_equiv {a b : JVal} (h : JEquiv a b) :
    renderJVal a = renderJVal b := by
  induction h with
  | null => rfl
  | jbool b => rfl
  | num n => rfl
  | str s => rfl
  | arr l₁ l₂ hlen h ih =>
    simp only [renderJVal, renderList_eq_map]
    rw [map_get_eq_map renderJVal l₁ l₂ hlen ih]
  | obj o₁ o₂ hn₁ hn₂ hkeys hvals ih =>
    simp only [renderJVal, renderPairs_eq_map]
    have hmk₁ : (o₁.map (fun kv => (kv.1, renderJVal kv.2))).map Prod.fst = o₁.map Prod.fst := by
      simp
    have hmk₂ : (o₂.map (fun kv => (kv.1, renderJVal kv.2))).map Prod.fst = o₂.map Prod.fst := by
      simp
    have heq := insertionSort_pairs_eq
      (o₁.map (fun kv => (kv.1, renderJVal kv.2)))
      (o₂.map (fun kv => (kv.1, renderJVal kv.2)))
      (by rw [hmk₁]; exact hn₁) (by rw [hmk₂]; exact hn₂)
      (by rw [hmk₁, hmk₂]; exact hkeys)
      ?_
    · rw [heq]
    · intro k v₁ v₂ h₁ h₂
      simp only [List.mem_map] at h₁ h₂
      rcases h₁ with ⟨kv₁, hkv₁, he₁⟩
      rcases h₂ with ⟨kv₂, hkv₂, he₂⟩
      have hk₁ : kv₁.1 = k := congrArg Prod.fst he₁
      have hk₂ : kv₂.1 = k := congrArg Prod.fst he₂
      have hv₁ : renderJVal kv₁.2 = v₁ := congrArg Prod.snd he₁
      have hv₂ : renderJVal kv₂.2 = v₂ := congrArg Prod.snd he₂
      rw [← hv₁, ← hv₂]
      exact ih k kv₁.2 kv₂.2
        (by rw [← hk₁]; exact hkv₁) (by rw [← hk₂]; exact hkv₂)

/-- C4. Normalization is canonical: two snapshot objects that agree as
finite maps (same keys at every nesting level, same nested values, any
insertion order) serialize to byte-identical strings, keys in sorted order;
hence any content hash of the normalized form is identical as well, and the
result is stable across calls. -/
theorem normalize_snapshot_canonical (o₁ o₂ : List (String × JVal))
    (h : JEquiv (JVal.obj o₁) (JVal.obj o₂)) :
    normalize_snapshot o₁ = normalize_snapshot o₂ ∧
      (∀ hash : String → String,
        hash (normalize_snapshot o₁) = hash (normalize_snapshot o₂)) := by
  have he : renderJVal (JVal.obj o₁) = renderJVal (JVal.obj o₂) :=
    renderJVal_eq_of_equiv h
  exact ⟨he, fun hash => congrArg hash he⟩

/-- C4 witness: two concretely permuted two-key objects normalize to the
same string. -/
theorem normalize_snapshot_canonical_witness :
    normalize_snapshot [("b", JVal.str "2"), ("a", JVal.str "1")] =
        normalize_snapshot [("a", JVal.str "1"), ("b", JVal.str "2")] ∧
      (∀ hash : String → String,
        hash (normalize_snapshot [("b", JVal.str "2"), ("a", JVal.str "1")]) =
          hash (normalize_snapshot [("a", JVal.str "1"), ("b", JVal.str "2")])) :=
  normalize_snapshot_canonical _ _
    (JEquiv.obj _ _ (by decide) (by decide)
      (by intro k; simp only [List.map_cons, List.map_nil, List.mem_cons]; tauto)
      (by
        intro k v₁ v₂ h₁ h₂
        simp only [List.mem_cons, List.not_mem_nil, or_false, Prod.mk.injEq] at h₁ h₂
        rcases h₁ with ⟨hk₁, hv₁⟩ | ⟨hk₁, hv₁⟩ <;>
          rcases h₂ with ⟨hk₂, hv₂⟩ | ⟨hk₂, hv₂⟩ <;> subst hk₁ <;> subst hv₁ <;>
          subst hv₂ <;> first
          | exact JEquiv.str _
          | (exfalso; exact absurd (hk₂.symm.trans rfl) (by decide))))

theorem strLtB_trans {a b c : String} (hab : strLtB a b = true)
    (hbc : strLtB b c = true) : strLtB a c = true :=
  charListLtB_trans _ _ _ hab hbc

theorem strLtB_irrefl (a : String) : strLtB a a = false :=
  charListLtB_irrefl a.toList

theorem strLtB_total (a b : String) :
    strLtB a b = true ∨ a = b ∨ strLtB b a = true := by
  rcases charListLtB_total a.toList b.toList with h | h | h
  · exact Or.inl h
  · exact Or.inr (Or.inl (string_toList_inj h))
  · exact Or.inr (Or.inr h)

theorem pairLe_iff (a b : String × String) :
    pairLe a b ↔ strLtB a.1 b.1 = true ∨ (a.1 = b.1 ∧ strLeP a.2 b.2) := by
  simp [pairLe, pairLeB, strLeP, Bool.or_eq_true, Bool.and_eq_true, beq_iff_eq]

instance : IsTrans (String × String) pairLe := by
  constructor
  intro a b c hab hbc
  rw [pairLe_iff] at hab hbc ⊢
  rcases hab with hab | ⟨hab, hab2⟩
  · rcases hbc with hbc | ⟨hbc, _⟩
    · exact Or.inl (strLtB_trans hab hbc)
    · exact Or.inl (hbc ▸ hab)
  · rcases hbc with hbc | ⟨hbc, hbc2⟩
    · exact Or.inl (hab ▸ hbc)
    · exact Or.inr ⟨hab.trans hbc, strLeP_trans hab2 hbc2⟩

instance : IsTotal (String × String) pairLe := by
  constructor
  intro a b
  rcases strLtB_total a.1 b.1 with h | h | h
  · exact Or.inl ((pairLe_iff a b).mpr (Or.inl h))
  · rcases strLeP_total a.2 b.2 with h2 | h2
    · exact Or.inl ((pairLe_iff a b).mpr (Or.inr ⟨h, h2⟩))
    · exact Or.inr ((pairLe_iff b a).mpr (Or.inr ⟨h.symm, h2⟩))
  · exact Or.inr ((pairLe_iff b a).mpr (Or.inl h))

theorem lookupD_append {α β : Type} [DecidableEq α] (l₁ l₂ : List (α × β)) (k : α) :
    lookupD (l₁ ++ l₂) k =
      (match lookupD l₁ k with
       | some v => some v
       | none => lookupD l₂ k) := by
  induction l₁ with
  | nil => simp [lookupD]
  | cons p rest ih =>
    rcases p with ⟨k1, v1⟩
    by_cases hk : k1 = k
    · simp [lookupD, hk]
    · simp [lookupD, hk, ih]

theorem lookupD_inner_block (t : String) (inner : List (String × String))
    (g : String → String) (t' c : String) :
    lookupD (inner.map (fun q => ((t, q.1), g q.2))) (t', c) =
      (if t' = t then (inner.find? (fun q => q.1 = c)).map (fun q => g q.2)
       else none) := by
  induction inner with
  | nil => simp [lookupD]
  | cons q rest ih =>
    simp only [List.map_cons, lookupD, List.find?]
    by_cases ht : t' = t
    · subst ht
      by_cases hc : q.1 = c
      · subst hc
        simp [Prod.ext_iff]
      · have hne : ¬((t', q.1) = (t', c)) := by
          simp [Prod.ext_iff, hc]
        rw [if_neg hne, ih]
        simp [hc]
    · have hne : ¬((t, q.1) = (t', c)) := by
        simp [Prod.ext_iff]
        intro he
        exact absurd he.symm ht
      rw [if_neg hne, ih, if_neg ht, if_neg ht]

theorem lookupD_flat_not_mem (m : FicGradesMap) (t c : String)
    (h : t ∉ m.map Prod.fst) :
    lookupD (m.flatMap (fun p => p.2.map (fun q => ((p.1, q.1), pyStrip q.2))))
      (t, c) = none := by
  induction m with
  | nil => rfl
  | cons p rest ih =>
    simp only [List.map_cons, List.mem_cons] at h
    push_neg at h
    simp only [List.flatMap_cons, lookupD_append,
      lookupD_inner_block p.1 p.2 pyStrip t c, if_neg h.1]
    exact ih h.2

theorem lookupD_flat_eq (m : FicGradesMap) (hm : (m.map Prod.fst).Nodup)
    (t c : String) :
    (lookupD (m.flatMap (fun p => p.2.map (fun q => ((p.1, q.1), pyStrip q.2))))
        (t, c)).getD "" =
      (match m.find? (fun p => p.1 = t) with
       | none => ""
       | some p =>
         match p.2.find? (fun q => q.1 = c) with
         | none => ""
         | some q => pyStrip q.2) := by
  induction m with
  | nil => rfl
  | cons p rest ih =>
    simp only [List.map_cons, List.nodup_cons] at hm
    simp only [List.flatMap_cons, lookupD_append,
      lookupD_inner_block p.1 p.2 pyStrip t c]
    by_cases ht : t = p.1
    · subst ht
      rw [if_pos rfl]
      rw [List.find?_cons_of_pos _ (by simp)]
      cases hfind : p.2.find? (fun q => q.1 = c) with
      | none =>
        simp only [hfind, Option.map_none]
        rw [lookupD_flat_not_mem rest p.1 c hm.1]
        rfl
      | some q =>
        simp [hfind]
    · rw [if_neg ht]
      rw [List.find?_cons_of_neg _ (by simp; exact fun he => absurd he.symm ht)]
      exact ih hm.2

theorem flat_keys_nodup (m : FicGradesMap) (h : nodupFicMap m) :
    ((m.flatMap (fun p => p.2.map (fun q => ((p.1, q.1), pyStrip q.2)))).map
      Prod.fst).Nodup := by
  obtain ⟨h1, h2⟩ := h
  induction m with
  | nil => simp
  | cons p rest ih =>
    simp only [List.map_cons, List.nodup_cons] at h1
    simp only [List.flatMap_cons, List.map_append]
    apply List.Nodup.append
    · simp only [List.map_map]
      have hinner : (p.2.map Prod.fst).Nodup := h2 p (by simp)
      have hcomp :
          (p.2.map ((fun q : (String × String) × String => q.1) ∘
            (fun q => ((p.1, q.1), pyStrip q.2)))) =
          (p.2.map Prod.fst).map (fun k => (p.1, k)) := by
        simp [List.map_map, Function.comp]
      rw [hcomp]
      exact hinner.map (fun a b hab => by simpa using congrArg Prod.snd hab)
    · exact ih h1.2 (fun q hq => h2 q (by simp [hq]))
    · intro k hk1 hk2
      simp only [List.map_map, List.mem_map, Function.comp] at hk1
      rcases hk1 with ⟨q, _, hq⟩
      simp only [List.map_flatMap, List.map_map, List.mem_flatMap, List.mem_map,
        Function.comp] at hk2
      rcases hk2 with ⟨r, hr, s, _, hs⟩
      have h1k : k.1 = p.1 := by rw [← hq]
      have h2k : k.1 = r.1 := by rw [← hs]
      exact h1.1 (by
        rw [← h1k, h2k]
        exact List.mem_map_of_mem Prod.fst hr)

theorem lookupD_flat_oldGrade (m : FicGradesMap) (hm : nodupFicMap m)
    (htr : trimmedFicMap m) (t c : String) :
    (lookupD (_flatten_grades_map m) (t, c)).getD "" = oldGradeAt m t c := by
  unfold _flatten_grades_map
  rw [dictOfList_eq_self _ (flat_keys_nodup m hm), lookupD_flat_eq m hm.1]
  unfold oldGradeAt
  cases hf : m.find? (fun p => p.1 = t) with
  | none => rfl
  | some p =>
    show (match p.2.find? (fun q => q.1 = c) with
          | none => ""
          | some q => pyStrip q.2) =
        (match p.2.find? (fun q => q.1 = c) with
          | none => ""
          | some q => q.2)
    cases hg : p.2.find? (fun q => q.1 = c) with
    | none => rfl
    | some q =>
      have hp : p ∈ m := List.mem_of_find?_eq_some hf
      have hq : q ∈ p.2 := List.mem_of_find?_eq_some hg
      exact htr p hp q hq

theorem filterMap_flatMap_list {α β γ : Type} (l : List α) (g : α → List β)
    (f : β → Option γ) :
    (l.flatMap g).filterMap f = l.flatMap (fun a => (g a).filterMap f) := by
  induction l with
  | nil => rfl
  | cons x xs ih => simp [List.flatMap_cons, List.filterMap_append, ih]

/-- C2. The flat diff matches the spec: it returns exactly the pairs
`(code, new_grade)` for keys of the new map whose (stripped) grade is
non-empty and differs from the old grade (absent key means empty), sorted by
`(code, grade)`; in particular a grade that becomes empty is never
reported. -/
theorem fic_diff_matches_spec (prev : Option FicGradesMap) (new_map : FicGradesMap)
    (hpn : nodupFicMap (prev.getD [])) (hnn : nodupFicMap new_map)
    (hpt : trimmedFicMap (prev.getD [])) (hnt : trimmedFicMap new_map) :
    find_new_or_changed_fic_grades prev new_map = spec_fic_changes prev new_map ∧
      List.Sorted pairLe (find_new_or_changed_fic_grades prev new_map) ∧
      (∀ ch ∈ find_new_or_changed_fic_grades prev new_map, ch.2 ≠ "") := by
  have hpre :
      (_flatten_grades_map new_map).filterMap (fun kv =>
        if kv.2 = "" then none
        else if (lookupD (_flatten_grades_map (prev.getD [])) kv.1).getD "" ≠ kv.2
          then some (kv.1.2, kv.2) else none) =
      new_map.flatMap (fun p => p.2.filterMap (fun q =>
        if q.2 ≠ "" ∧ oldGradeAt (prev.getD []) p.1 q.1 ≠ q.2 then some (q.1, q.2)
        else none)) := by
    unfold _flatten_grades_map
    rw [dictOfList_eq_self _ (flat_keys_nodup new_map hnn)]
    rw [filterMap_flatMap_list]
    apply List.flatMap_congr
    intro p hp
    rw [List.filterMap_map]
    apply List.filterMap_congr
    intro q hq
    have hstrip : pyStrip q.2 = q.2 := hnt p hp q hq
    have hold : (lookupD (_flatten_grades_map (prev.getD [])) (p.1, q.1)).getD ""
        = oldGradeAt (prev.getD []) p.1 q.1 :=
      lookupD_flat_oldGrade (prev.getD []) hpn hpt p.1 q.1
    unfold _flatten_grades_map at hold
    simp only [Function.comp, hstrip, hold]
    by_cases hg : q.2 = ""
    · simp [hg]
    · by_cases hch : oldGradeAt (prev.getD []) p.1 q.1 = q.2
      · simp [hg, hch, hold]
      · simp [hg, hch, hold]
  have hmain : find_new_or_changed_fic_grades prev new_map =
      spec_fic_changes prev new_map := by
    simp only [find_new_or_changed_fic_grades, spec_fic_changes]
    rw [hpre]
  refine ⟨hmain, ?_, ?_⟩
  · unfold find_new_or_changed_fic_grades
    exact List.sorted_insertionSort pairLe _
  · intro ch hch
    rw [hmain] at hch
    unfold spec_fic_changes at hch
    have hch2 := (List.perm_insertionSort pairLe _).subset hch
    rw [List.mem_flatMap] at hch2
    rcases hch2 with ⟨p, _, hchp⟩
    rw [List.mem_filterMap] at hchp
    rcases hchp with ⟨q, _, hq⟩
    by_cases hcond : q.2 ≠ "" ∧ oldGradeAt (prev.getD []) p.1 q.1 ≠ q.2
    · rw [if_pos hcond] at hq
      have : ch = (q.1, q.2) := by injection hq with h; exact h.symm
      rw [this]
      exact hcond.1
    · rw [if_neg hcond] at hq
      exact absurd hq (by simp)

/-- C2 witness: concrete diff with a cleared grade suppressed and a new
non-empty grade reported. -/
theorem fic_diff_matches_spec_witness :
    nodupFicMap ((some [("T", [("X", "A")])] : Option FicGradesMap).getD []) ∧
    nodupFicMap [("T", [("X", ""), ("Y", "B+")])] ∧
    trimmedFicMap ((some [("T", [("X", "A")])] : Option FicGradesMap).getD []) ∧
    trimmedFicMap [("T", [("X", ""), ("Y", "B+")])] ∧
    (find_new_or_changed_fic_grades (some [("T", [("X", "A")])])
        [("T", [("X", ""), ("Y", "B+")])] =
      spec_fic_changes (some [("T", [("X", "A")])])
        [("T", [("X", ""), ("Y", "B+")])] ∧
      List.Sorted pairLe (find_new_or_changed_fic_grades
        (some [("T", [("X", "A")])]) [("T", [("X", ""), ("Y", "B+")])]) ∧
      (∀ ch ∈ find_new_or_changed_fic_grades (some [("T", [("X", "A")])])
        [("T", [("X", ""), ("Y", "B+")])], ch.2 ≠ "")) :=
  ⟨by decide, by decide, by decide, by decide,
    fic_diff_matches_spec (some [("T", [("X", "A")])])
      [("T", [("X", ""), ("Y", "B+")])] (by decide) (by decide) (by decide) (by decide)⟩

theorem merge_recent_singles (α : Type) (e : Nat → α) :
    ∀ n : Nat,
      List.foldl (fun st k => merge_recent_changes [e k] st) [] (List.range n) =
        (((List.range n).map e).reverse).take 50 := by
  intro n
  induction n with
  | zero => rfl
  | succ k ih =>
    rw [List.range_succ, List.foldl_append, ih]
    simp only [List.foldl_cons, List.foldl_nil, List.map_append, List.map_cons,
      List.map_nil, List.reverse_append, List.reverse_cons, List.reverse_nil,
      List.nil_append, List.cons_append]
    show merge_recent_changes [e k] _ = _
    unfold merge_recent_changes
    rw [List.singleton_append, List.take_succ_cons, List.take_take]
    rfl

/-- C5. The recent-events store is a 50-deep newest-first ring buffer: each
update with a batch stores exactly the batch prepended to the previous list
truncated to 50 entries, so the stored list never exceeds 50 entries, and 60
sequential one-event pushes leave exactly the 50 most recent events,
newest-first. -/
theorem recent_events_ring_buffer {α : Type} :
    (∀ events existing : List α,
        merge_recent_changes events existing = (events ++ existing).take 50) ∧
    (∀ events existing : List α,
        (merge_recent_changes events existing).length ≤ 50) ∧
    (∀ e : Nat → α,
        List.foldl (fun st k => merge_recent_changes [e k] st) [] (List.range 60) =
          (((List.range 60).map e).reverse).take 50 ∧
        (List.foldl (fun st k => merge_recent_changes [e k] st) []
          (List.range 60)).length = 50) := by
  refine ⟨fun _ _ => rfl, ?_, ?_⟩
  · intro events existing
    unfold merge_recent_changes
    simpa using List.length_take_le 50 (events ++ existing)
  · intro e
    refine ⟨merge_recent_singles α e 60, ?_⟩
    rw [merge_recent_singles α e 60]
    simp

/-- C6. A failed fetch records the localized error for the source, leaves
the stored baseline (canonical snapshot and hash) untouched, sends nothing,
and still advances the next-due timestamp by `max(5, interval)` seconds;
an error text containing `invalid` and `password` is recorded as the stable
string `"Invalid login or password."`. -/
theorem monitor_error_keeps_baseline (hash : String → String)
    (loads : String → Except String JVal) (interval now : Int)
    (st : FicState) (e : String) :
    (monitor_fic_cycle hash loads interval now st (.error e)).state.last_snapshot
        = st.last_snapshot ∧
    (monitor_fic_cycle hash loads interval now st (.error e)).state.last_hash
        = st.last_hash ∧
    (monitor_fic_cycle hash loads interval now st (.error e)).state.last_error
        = some (localize_known_error e) ∧
    (monitor_fic_cycle hash loads interval now st (.error e)).next_ts
        = now + max 5 interval ∧
    (monitor_fic_cycle hash loads interval now st (.error e)).notification
        = none ∧
    localize_known_error "FIC: Invalid login or password for this account"
        = "Invalid login or password." :=
  ⟨rfl, rfl, rfl, rfl, rfl, by decide⟩

/-- C10. `parse_snapshot` never raises: `None`, the empty string, and any
string the JSON parser rejects all yield the empty object, so a missing or
corrupted stored baseline makes the flat diff behave exactly as with no
previous snapshot. -/
theorem parse_snapshot_total (loads : String → Except String JVal) :
    parse_snapshot loads none = JVal.obj [] ∧
    parse_snapshot loads (some "") = JVal.obj [] ∧
    (∀ s err, loads s = .error err → parse_snapshot loads (some s) = JVal.obj []) ∧
    (∀ s err new_map, loads s = .error err →
      find_new_or_changed_fic_grades
          (some (jvalToFicMap (parse_snapshot loads (some s)))) new_map =
        find_new_or_changed_fic_grades none new_map) := by
  refine ⟨rfl, rfl, ?_, ?_⟩
  · intro s err herr
    unfold parse_snapshot
    by_cases hs : s = ""
    · simp [hs]
    · simp [hs, herr]
  · intro s err new_map herr
    have hp : parse_snapshot loads (some s) = JVal.obj [] := by
      unfold parse_snapshot
      by_cases hs : s = ""
      · simp [hs]
      · simp [hs, herr]
    rw [hp]
    rfl

/-- C10 witness: a concrete failing parser and non-JSON string hit the
fallback. -/
theorem parse_snapshot_total_witness :
    ((fun _ : String => (Except.error "boom" : Except String JVal)) "not json"
        = Except.error "boom") ∧
    parse_snapshot (fun _ => Except.error "boom") (some "not json") = JVal.obj [] :=
  ⟨rfl,
    (parse_snapshot_total (fun _ => Except.error "boom")).2.2.1 "not json" "boom" rfl⟩

theorem moodleItemStep_shape (old_items : List (String × MoodleItem))
    (c : MoodleCourse) (it : MoodleItem) (ch : MoodleChange)
    (h : ch ∈ moodleItemStep old_items c it) :
    ch.course = c ∧ ch.new_item = it := by
  unfold moodleItemStep at h
  by_cases hid : it.item_id = ""
  · rw [if_pos hid] at h; cases h
  · rw [if_neg hid] at h
    cases hL : lookupD old_items it.item_id with
    | none =>
      rw [hL] at h
      dsimp only at h
      split_ifs at h with h1
      · rcases List.mem_singleton.mp h with rfl
        exact ⟨rfl, rfl⟩
      · cases h
    | some old_it =>
      rw [hL] at h
      dsimp only at h
      split_ifs at h with h1 h2
      · rcases List.mem_singleton.mp h with rfl
        exact ⟨rfl, rfl⟩
      · rcases List.mem_singleton.mp h with rfl
        exact ⟨rfl, rfl⟩
      · cases h

theorem moodleItemStep_eq_spec (old_items : List (String × MoodleItem))
    (c : MoodleCourse) (it : MoodleItem) (hid : it.item_id ≠ "") :
    moodleItemStep old_items c it =
      (match lookupD old_items it.item_id with
       | none =>
         if moodleHasContent it then
           [{ course := c, old_item := none, new_item := it }]
         else []
       | some old_it =>
         if moodleChangedCond old_it it then
           [{ course := c, old_item := some old_it, new_item := it }]
         else []) := by
  unfold moodleItemStep
  rw [if_neg hid]
  cases lookupD old_items it.item_id with
  | none => rfl
  | some old_it =>
    have hpair : (it.grade ≠ old_it.grade ∨ it.percentage ≠ old_it.percentage) ↔
        (it.grade, it.percentage) ≠ (old_it.grade, old_it.percentage) := by
      constructor
      · intro h he
        rw [Prod.mk.injEq] at he
        rcases h with h | h
        · exact h he.1
        · exact h he.2
      · intro h
        by_cases hg : it.grade = old_it.grade
        · by_cases hp2 : it.percentage = old_it.percentage
          · exact absurd (by rw [hg, hp2]) h
          · exact Or.inr hp2
        · exact Or.inl hg
    by_cases h1 : (it.grade ≠ old_it.grade ∨ it.percentage ≠ old_it.percentage) ∧
        (it.grade ≠ "" ∨ it.percentage ≠ "")
    · have hc : moodleChangedCond old_it it :=
        Or.inl ⟨hpair.mp h1.1, h1.2⟩
      simp only [if_pos h1, if_pos hc]
    · by_cases h2 : it.feedback ≠ old_it.feedback ∧ it.feedback ≠ ""
      · have hc : moodleChangedCond old_it it := Or.inr h2
        simp only [if_neg h1, if_pos h2, if_pos hc]
      · have hc : ¬moodleChangedCond old_it it := by
          intro hcc
          rcases hcc with ⟨ha, hb⟩ | hcc
          · exact h1 ⟨hpair.mpr ha, hb⟩
          · exact h2 hcc
        simp only [if_neg h1, if_neg h2, if_neg hc]

theorem countP_flatMap_key {α β K : Type} [DecidableEq K] (p : β → Bool)
    (L : List α) (f : α → List β) (k : α → K)
    (hnd : (L.map k).Nodup) (a : α) (ha : a ∈ L)
    (hother : ∀ a₁ ∈ L, k a₁ ≠ k a → ∀ b ∈ f a₁, p b = false) :
    (L.flatMap f).countP p = (f a).countP p := by
  induction L with
  | nil => cases ha
  | cons x rest ih =>
    simp only [List.map_cons, List.nodup_cons] at hnd
    rw [List.flatMap_cons, List.countP_append]
    by_cases hx : k x = k a
    · have hxa : x = a := by
        rcases List.mem_cons.mp ha with h | h
        · exact h.symm
        · exact absurd (hx ▸ List.mem_map_of_mem k h) hnd.1
      subst hxa
      have hrest : (rest.flatMap f).countP p = 0 := by
        rw [List.countP_eq_zero]
        intro b hb
        rw [List.mem_flatMap] at hb
        rcases hb with ⟨a₁, ha₁, hb⟩
        have hk : k a₁ ≠ k x := fun he => hnd.1 (he ▸ List.mem_map_of_mem k ha₁)
        simp [hother a₁ (List.mem_cons_of_mem _ ha₁) hk b hb]
      rw [hrest]
      omega
    · have h0 : (f x).countP p = 0 := by
        rw [List.countP_eq_zero]
        intro b hb
        simp [hother x (List.mem_cons_self x rest) hx b hb]
      have ha2 : a ∈ rest := by
        rcases List.mem_cons.mp ha with h | h
        · exact absurd (show k x = k a by rw [h]) hx
        · exact h
      rw [h0, ih hnd.2 ha2
        (fun a₁ h1 h2 => hother a₁ (List.mem_cons_of_mem _ h1) h2)]
      simp

theorem moodle_diff_unfold (prev : Option MoodleSnapshot) (snap : MoodleSnapshot)
    (hp : wfSnapshot ⟨prevCoursesOf prev⟩) (hn : wfSnapshot snap) :
    find_new_or_changed_moodle_items prev snap =
      snap.courses.flatMap (fun c =>
        c.items.flatMap (fun it =>
          moodleItemStep
            ((oldCourseItems prev c.course_id).map (fun it2 => (it2.item_id, it2)))
            c it)) := by
  have houter : ((snap.courses.map (fun c => (c.course_id, c))).map Prod.fst).Nodup := by
    simpa [List.map_map, Function.comp] using hn.1
  have hprev :
      (((prevCoursesOf prev).map (fun c => (c.course_id, c))).map Prod.fst).Nodup := by
    simpa [List.map_map, Function.comp] using hp.1
  simp only [find_new_or_changed_moodle_items]
  rw [dictOfList_eq_self _ houter, List.flatMap_map]
  apply List.flatMap_congr
  intro c hc
  rw [dictOfList_eq_self _ hprev,
    lookupD_map_key MoodleCourse.course_id (prevCoursesOf prev) c.course_id]
  cases hf : (prevCoursesOf prev).find? (fun x => x.course_id = c.course_id) with
  | none =>
    simp only [oldCourseItems, hf]
    rfl
  | some oc =>
    have hoc : oc ∈ prevCoursesOf prev := List.mem_of_find?_eq_some hf
    have hnd : ((oc.items.map (fun it2 => (it2.item_id, it2))).map Prod.fst).Nodup := by
      simpa [List.map_map, Function.comp] using (hp.2 oc hoc).1
    simp only [oldCourseItems, hf, dictOfList_eq_self _ hnd]

theorem lookupD_oldCourse (prev : Option MoodleSnapshot) (cid : Int) (iid : String) :
    lookupD ((oldCourseItems prev cid).map (fun it2 => (it2.item_id, it2))) iid =
      oldItemOf prev cid iid := by
  rw [lookupD_map_key MoodleItem.item_id (oldCourseItems prev cid) iid]
  unfold oldItemOf oldCourseItems
  cases hf : (prevCoursesOf prev).find? (fun c => c.course_id = cid) with
  | none => rfl
  | some oc => rfl

/-- C1. The hierarchical diff matches the spec on well-formed snapshots
(unique course ids; unique, non-empty item ids per course): events are
emitted only for courses of the new snapshot; an unmatched new item yields a
`new` event exactly when it carries a grade, percentage or feedback; a
matched item yields exactly one event exactly when the `(grade, percentage)`
pair changed and is non-empty, or the feedback changed and is non-empty. -/
theorem moodle_diff_matches_spec (prev : Option MoodleSnapshot)
    (snap : MoodleSnapshot) (hp : wfSnapshot ⟨prevCoursesOf prev⟩)
    (hn : wfSnapshot snap) :
    (∀ ch ∈ find_new_or_changed_moodle_items prev snap, ch.course ∈ snap.courses) ∧
    (∀ c ∈ snap.courses, ∀ it ∈ c.items,
      (oldItemOf prev c.course_id it.item_id = none →
        (countChangesFor (find_new_or_changed_moodle_items prev snap)
            c.course_id it.item_id = if moodleHasContent it then 1 else 0) ∧
        ((MoodleChange.mk c none it) ∈ find_new_or_changed_moodle_items prev snap ↔
          moodleHasContent it)) ∧
      (∀ old_it, oldItemOf prev c.course_id it.item_id = some old_it →
        countChangesFor (find_new_or_changed_moodle_items prev snap)
            c.course_id it.item_id =
          if moodleChangedCond old_it it then 1 else 0)) := by
  have hU := moodle_diff_unfold prev snap hp hn
  constructor
  · intro ch hch
    rw [hU, List.mem_flatMap] at hch
    rcases hch with ⟨c, hc, hch⟩
    rw [List.mem_flatMap] at hch
    rcases hch with ⟨it, _, hch⟩
    rw [← (moodleItemStep_shape _ _ _ _ hch).1] at hc
    exact hc
  · intro c hc it hit
    have hid : it.item_id ≠ "" := (hn.2 c hc).2 it hit
    have hcount : countChangesFor (find_new_or_changed_moodle_items prev snap)
        c.course_id it.item_id =
        (moodleItemStep
          ((oldCourseItems prev c.course_id).map (fun it2 => (it2.item_id, it2)))
          c it).length := by
      unfold countChangesFor
      rw [hU]
      rw [countP_flatMap_key _ snap.courses _ MoodleCourse.course_id hn.1 c hc ?hc1]
      case hc1 =>
        intro c₁ _ hne b hb
        rw [List.mem_flatMap] at hb
        rcases hb with ⟨it₁, _, hb⟩
        have hsh := moodleItemStep_shape _ _ _ _ hb
        rw [decide_eq_false_iff_not]
        intro hcontra
        have hcc := hcontra.1
        rw [hsh.1] at hcc
        exact hne hcc
      rw [countP_flatMap_key _ c.items _ MoodleItem.item_id (hn.2 c hc).1 it hit ?hi1]
      case hi1 =>
        intro it₁ _ hne b hb
        have hsh := moodleItemStep_shape _ _ _ _ hb
        rw [decide_eq_false_iff_not]
        intro hcontra
        have hcc := hcontra.2
        rw [hsh.2] at hcc
        exact hne hcc
      rw [List.countP_eq_length.mpr]
      intro b hb
      have hsh := moodleItemStep_shape _ _ _ _ hb
      rw [decide_eq_true_eq]
      exact ⟨by rw [hsh.1], by rw [hsh.2]⟩
    refine ⟨fun hNone => ⟨?_, ?_⟩, fun old_it hSome => ?_⟩
    · rw [hcount, moodleItemStep_eq_spec _ _ _ hid, lookupD_oldCourse, hNone]
      by_cases hcont : moodleHasContent it
      · rw [if_pos hcont, if_pos hcont]
        rfl
      · rw [if_neg hcont, if_neg hcont]
        rfl
    · constructor
      · intro hmem
        rw [hU, List.mem_flatMap] at hmem
        rcases hmem with ⟨c₁, _, hmem⟩
        rw [List.mem_flatMap] at hmem
        rcases hmem with ⟨it₁, _, hmem⟩
        have hsh := moodleItemStep_shape _ _ _ _ hmem
        have hc₁ : c₁ = c := hsh.1.symm
        have hit₁ : it₁ = it := hsh.2.symm
        rw [hc₁, hit₁] at hmem
        rw [moodleItemStep_eq_spec _ _ _ hid, lookupD_oldCourse, hNone] at hmem
        by_cases hcont : moodleHasContent it
        · exact hcont
        · rw [if_neg hcont] at hmem
          cases hmem
      · intro hcont
        rw [hU, List.mem_flatMap]
        refine ⟨c, hc, ?_⟩
        rw [List.mem_flatMap]
        refine ⟨it, hit, ?_⟩
        rw [moodleItemStep_eq_spec _ _ _ hid, lookupD_oldCourse, hNone,
          if_pos hcont]
        exact List.mem_singleton.mpr rfl
    · rw [hcount, moodleItemStep_eq_spec _ _ _ hid, lookupD_oldCourse, hSome]
      dsimp only
      by_cases hch : moodleChangedCond old_it it
      · rw [if_pos hch, if_pos hch]
        rfl
      · rw [if_neg hch, if_neg hch]
        rfl

/-- C1 witness: a concrete two-item course with one changed grade. -/
theorem moodle_diff_matches_spec_witness :
    wfSnapshot ⟨prevCoursesOf (some ⟨[⟨7, [⟨"row_1", "10", "50 %", ""⟩]⟩]⟩)⟩ ∧
    wfSnapshot ⟨[⟨7, [⟨"row_1", "12", "60 %", ""⟩, ⟨"row_2", "", "", ""⟩]⟩]⟩ ∧
    ((∀ ch ∈ find_new_or_changed_moodle_items
        (some ⟨[⟨7, [⟨"row_1", "10", "50 %", ""⟩]⟩]⟩)
        ⟨[⟨7, [⟨"row_1", "12", "60 %", ""⟩, ⟨"row_2", "", "", ""⟩]⟩]⟩,
        ch.course ∈ (MoodleSnapshot.mk
          [⟨7, [⟨"row_1", "12", "60 %", ""⟩, ⟨"row_2", "", "", ""⟩]⟩]).courses) ∧
      (∀ c ∈ (MoodleSnapshot.mk
          [⟨7, [⟨"row_1", "12", "60 %", ""⟩, ⟨"row_2", "", "", ""⟩]⟩]).courses,
        ∀ it ∈ c.items,
        (oldItemOf (some ⟨[⟨7, [⟨"row_1", "10", "50 %", ""⟩]⟩]⟩)
            c.course_id it.item_id = none →
          (countChangesFor (find_new_or_changed_moodle_items
              (some ⟨[⟨7, [⟨"row_1", "10", "50 %", ""⟩]⟩]⟩)
              ⟨[⟨7, [⟨"row_1", "12", "60 %", ""⟩, ⟨"row_2", "", "", ""⟩]⟩]⟩)
              c.course_id it.item_id = if moodleHasContent it then 1 else 0) ∧
          ((MoodleChange.mk c none it) ∈ find_new_or_changed_moodle_items
              (some ⟨[⟨7, [⟨"row_1", "10", "50 %", ""⟩]⟩]⟩)
              ⟨[⟨7, [⟨"row_1", "12", "60 %", ""⟩, ⟨"row_2", "", "", ""⟩]⟩]⟩ ↔
            moodleHasContent it)) ∧
        (∀ old_it, oldItemOf (some ⟨[⟨7, [⟨"row_1", "10", "50 %", ""⟩]⟩]⟩)
            c.course_id it.item_id = some old_it →
          countChangesFor (find_new_or_changed_moodle_items
              (some ⟨[⟨7, [⟨"row_1", "10", "50 %", ""⟩]⟩]⟩)
              ⟨[⟨7, [⟨"row_1", "12", "60 %", ""⟩, ⟨"row_2", "", "", ""⟩]⟩]⟩)
              c.course_id it.item_id =
            if moodleChangedCond old_it it then 1 else 0))) :=
  ⟨by decide, by decide,
    moodle_diff_matches_spec
      (some ⟨[⟨7, [⟨"row_1", "10", "50 %", ""⟩]⟩]⟩)
      ⟨[⟨7, [⟨"row_1", "12", "60 %", ""⟩, ⟨"row_2", "", "", ""⟩]⟩]⟩
      (by decide) (by decide)⟩

theorem parse_results_row_ok (empty_grade : String) (res : FicGradesMap)
    (tr : FicRow) : ∃ r, parse_results_row empty_grade res tr = .ok r := by
  unfold parse_results_row
  by_cases hlen : tr.tds.length < 5
  · exact ⟨res, by rw [if_pos hlen]⟩
  · rw [if_neg hlen]
    push_neg at hlen
    have h0 : ∃ x, pyIndex tr.tds 0 = .ok x := by
      unfold pyIndex
      cases hd : tr.tds.drop 0 with
      | nil => rw [List.drop_eq_nil_iff] at hd; omega
      | cons x xs => exact ⟨x, rfl⟩
    have h1 : ∃ x, pyIndex tr.tds 1 = .ok x := by
      unfold pyIndex
      cases hd : tr.tds.drop 1 with
      | nil => rw [List.drop_eq_nil_iff] at hd; omega
      | cons x xs => exact ⟨x, rfl⟩
    have h4 : ∃ x, pyIndex tr.tds 4 = .ok x := by
      unfold pyIndex
      cases hd : tr.tds.drop 4 with
      | nil => rw [List.drop_eq_nil_iff] at hd; omega
      | cons x xs => exact ⟨x, rfl⟩
    rcases h0 with ⟨x0, h0⟩
    rcases h1 with ⟨x1, h1⟩
    rcases h4 with ⟨x4, h4⟩
    rw [h0, h1, h4]
    by_cases hsc : pyStrip x0.text = "" ∨ pyStrip x1.text = ""
    · exact ⟨res, by dsimp only; rw [if_pos hsc]⟩
    · exact ⟨ficSetGrade res (pyStrip x0.text) (pyStrip x1.text)
        (if pyStrip x4.text = "" then empty_grade else pyStrip x4.text),
        by dsimp only; rw [if_neg hsc]⟩

theorem parse_results_fold_ok (empty_grade : String) :
    ∀ (rows : List FicRow) (acc : FicGradesMap),
      ∃ r, rows.foldlM (parse_results_row empty_grade) acc = .ok r := by
  intro rows
  induction rows with
  | nil => intro acc; exact ⟨acc, rfl⟩
  | cons r rs ih =>
    intro acc
    rcases parse_results_row_ok empty_grade acc r with ⟨acc1, h1⟩
    rcases ih acc1 with ⟨r2, h2⟩
    refine ⟨r2, ?_⟩
    rw [List.foldlM_cons, h1]
    exact h2

theorem parse_results_skip_short (empty_grade : String) :
    ∀ (rows : List FicRow) (acc : FicGradesMap),
      rows.foldlM (parse_results_row empty_grade) acc =
        (rows.filter (fun r => 5 ≤ r.tds.length)).foldlM
          (parse_results_row empty_grade) acc := by
  intro rows
  induction rows with
  | nil => intro acc; rfl
  | cons r rs ih =>
    intro acc
    by_cases hlen : 5 ≤ r.tds.length
    · rw [List.filter_cons_of_pos (by simpa using hlen), List.foldlM_cons,
        List.foldlM_cons]
      cases hr : parse_results_row empty_grade acc r with
      | error e => rfl
      | ok acc1 => exact ih acc1
    · have hshort : r.tds.length < 5 := by omega
      have hr : parse_results_row empty_grade acc r = .ok acc := by
        unfold parse_results_row
        rw [if_pos hshort]
      rw [List.filter_cons_of_neg (by simpa using hlen), List.foldlM_cons, hr]
      exact ih acc

/-- C9. A body row with fewer than five cells contributes nothing: parsing
is unchanged when all short rows are removed, and a table holding only a
short row (even one with non-empty term and code cells) parses to the empty
mapping rather than an entry with the placeholder grade. -/
theorem short_rows_contribute_nothing (empty_grade : String) :
    (∀ rows : List FicRow,
      parse_results ⟨some ⟨some rows⟩⟩ empty_grade =
        parse_results ⟨some ⟨some (rows.filter (fun r => 5 ≤ r.tds.length))⟩⟩
          empty_grade) ∧
    (∀ r : FicRow, r.tds.length < 5 →
      parse_results ⟨some ⟨some [r]⟩⟩ empty_grade = .ok []) := by
  constructor
  · intro rows
    unfold parse_results
    exact parse_results_skip_short empty_grade rows []
  · intro r hshort
    unfold parse_results
    have hr : parse_results_row empty_grade [] r = .ok [] := by
      unfold parse_results_row
      rw [if_pos hshort]
    dsimp only
    rw [List.foldlM_cons, hr]
    rfl

/-- C9 witness: a two-cell row with non-empty term and code is skipped. -/
theorem short_rows_contribute_nothing_witness :
    (FicRow.mk [⟨"Fall 2025"⟩, ⟨"CMPT130"⟩]).tds.length < 5 ∧
    parse_results ⟨some ⟨some [⟨[⟨"Fall 2025"⟩, ⟨"CMPT130"⟩]⟩]⟩⟩ "" = .ok [] :=
  ⟨by decide, (short_rows_contribute_nothing "").2 _ (by decide)⟩

/-- C7 counterexample: with two category header rows sharing `cat_1` (names
`First` then `Second`), the extractor resolves an item's path through the
last-seen mapping (`Second`), not the first-seen one the claim requires
(`First`). -/
theorem report_first_seen_counterexample :
    (parse_moodle_course_report (fun _ => "")
        ⟨some [sampleCatRow "cat_1" "level1" "First",
               sampleCatRow "cat_1" "level1" "Second",
               sampleItemRow "row_5" ["cat_1"] "Quiz"]⟩).map
      MoodleGradeItem.category_path = ["Second"] ∧
    categoryPathOf
        (buildCatInfoFirstSeen
          [sampleCatRow "cat_1" "level1" "First",
           sampleCatRow "cat_1" "level1" "Second",
           sampleItemRow "row_5" ["cat_1"] "Quiz"]) ["cat_1"] = "First" ∧
    ("Second" : String) ≠ "First" :=
  ⟨by decide, by decide, by decide⟩

theorem itemOfRow_category_path (hashFn : String → String)
    (cat_info : List (String × (Nat × String)))
    (col_keys : List (Option String)) (tr : ReportRow) (item : MoodleGradeItem)
    (h : itemOfRow hashFn cat_info col_keys tr = some item) :
    item.category_path = categoryPathOf cat_info tr.classes := by
  unfold itemOfRow at h
  by_cases hsp : "spacer" ∈ tr.classes
  · rw [if_pos hsp] at h
    cases h
  · rw [if_neg hsp] at h
    cases hth : tr.ths.head? with
    | none =>
      rw [hth] at h
      cases h
    | some th =>
      rw [hth] at h
      dsimp only at h
      split_ifs at h with h1 h2
      injection h with h
      rw [← h]

/-- C7 (amended). Every extracted item's `category_path` resolves the
`cat_*` classes of its row through the category table (last-seen mapping for
duplicate ids), ordered by ascending nesting level and joined with the
separator; in particular two categories at levels 1 and 2 are emitted
level-1 name first regardless of the order of the class declarations. -/
theorem report_category_path_spec (hashFn : String → String)
    (rows : List ReportRow) :
    (∀ item ∈ parse_moodle_course_report hashFn ⟨some rows⟩,
      ∃ tr ∈ rows,
        item.category_path = categoryPathOf (buildCatInfo rows) tr.classes) ∧
    (∀ (cat_info : List (String × (Nat × String))) (id1 id2 n1 n2 : String),
      lookupD cat_info id1 = some (1, n1) →
      lookupD cat_info id2 = some (2, n2) →
      catIdOf ("cat_" ++ id1) = some id1 →
      catIdOf ("cat_" ++ id2) = some id2 →
      categoryPathOf cat_info ["cat_" ++ id1, "cat_" ++ id2] =
          n1 ++ " > " ++ n2 ∧
        categoryPathOf cat_info ["cat_" ++ id2, "cat_" ++ id1] =
          n1 ++ " > " ++ n2) := by
  constructor
  · intro item hitem
    unfold parse_moodle_course_report at hitem
    dsimp only at hitem
    rw [List.mem_filterMap] at hitem
    rcases hitem with ⟨tr, htr, hsome⟩
    exact ⟨tr, htr, itemOfRow_category_path _ _ _ _ _ hsome⟩
  · intro cat_info id1 id2 n1 n2 h1 h2 hc1 hc2
    unfold categoryPathOf
    constructor
    · simp only [List.filterMap_cons, List.filterMap_nil, hc1, hc2, h1, h2]
      show String.intercalate " > "
        ((List.insertionSort levelLe [(1, n1), (2, n2)]).map Prod.snd) = _
      have hsort : List.insertionSort levelLe [(1, n1), (2, n2)] =
          [(1, n1), (2, n2)] := by
        simp [List.insertionSort, List.orderedInsert, levelLe]
      rw [hsort]
      rfl
    · simp only [List.filterMap_cons, List.filterMap_nil, hc1, hc2, h1, h2]
      show String.intercalate " > "
        ((List.insertionSort levelLe [(2, n2), (1, n1)]).map Prod.snd) = _
      have hsort : List.insertionSort levelLe [(2, n2), (1, n1)] =
          [(1, n1), (2, n2)] := by
        simp [List.insertionSort, List.orderedInsert, levelLe]
      rw [hsort]
      rfl

/-- C7 witness: concrete two-level table; both class orders give
`"Top > Sub"`. -/
theorem report_category_path_spec_witness :
    ((sampleItemRow "row_5" ["cat_2", "cat_1"] "Quiz").classes =
        ["cat_2", "cat_1", "level2"]) ∧
    lookupD [("1", ((1 : Nat), "Top")), ("2", ((2 : Nat), "Sub"))] "1" =
        some (1, "Top") ∧
    (categoryPathOf [("1", ((1 : Nat), "Top")), ("2", ((2 : Nat), "Sub"))]
        ["cat_" ++ "1", "cat_" ++ "2"] = "Top" ++ " > " ++ "Sub" ∧
      categoryPathOf [("1", ((1 : Nat), "Top")), ("2", ((2 : Nat), "Sub"))]
        ["cat_" ++ "2", "cat_" ++ "1"] = "Top" ++ " > " ++ "Sub") :=
  ⟨by decide, by decide,
    (report_category_path_spec (fun _ => "") []).2
      [("1", ((1 : Nat), "Top")), ("2", ((2 : Nat), "Sub"))] "1" "2" "Top" "Sub"
      (by decide) (by decide) (by decide) (by decide)⟩

/-- C8. The extractors are total over parsed pages: the flat extractor (run
in `Except`, with Python list indexing modelled as fallible) never raises
for any page, and each extractor returns an empty result when its table (or
the table body) is absent. -/
theorem extractors_total (empty_grade : String) (hashFn : String → String) :
    (∀ doc : FicDoc, ∃ r, parse_results doc empty_grade = .ok r) ∧
    parse_results ⟨none⟩ empty_grade = .ok [] ∧
    parse_results ⟨some ⟨none⟩⟩ empty_grade = .ok [] ∧
    parse_moodle_overview_courses ⟨none⟩ empty_grade = [] ∧
    parse_moodle_course_report hashFn ⟨none⟩ = [] := by
  refine ⟨?_, rfl, rfl, rfl, rfl⟩
  intro doc
  match doc with
  | ⟨none⟩ => exact ⟨[], rfl⟩
  | ⟨some ⟨none⟩⟩ => exact ⟨[], rfl⟩
  | ⟨some ⟨some rows⟩⟩ =>
    have h := parse_results_fold_ok empty_grade rows []
    rcases h with ⟨r, hr⟩
    exact ⟨r, by unfold parse_results; exact hr⟩
